import Mathlib

/-!
Shallow embedding of the `yaj` JSON lexer and parser (`src/lib.rs`).

Modelling conventions:
* The source text and all token slices are `List Char`.  Rust slices byte
  ranges out of the UTF-8 buffer; every slice boundary the code creates sits
  on an ASCII character (`"`­, digits, `{`, ...), so the byte-range slices
  coincide with the character-range slices modelled here.
* A Rust `panic!` (and likewise an out-of-bounds / usize-underflow abort in a
  slice-index expression) is modelled as `Option.none`; a returned
  `Result<_, ParseError>` is the `Except` layer inside `some`.
* `f64` values cannot be embedded; a successfully float-parsed number is kept
  as its source slice (`JsonNumber.Float slice`).  Rust's `f64::from_str` is a
  function of the slice, and no slice accepted by the number lexer parses to
  `NaN`, so equality of the modelled values coincides with Rust `PartialEq`
  equality of the produced `JsonValue`s.
* Recursion that is not structural in the Rust code (the main lexer loop and
  the mutually recursive parser) is defined with a fuel parameter; the public
  wrappers (`lex`, `parseValue`, ...) supply `length + 1` fuel, and
  fuel-irrelevance lemmas below show any fuel above the input length gives the
  same result, so the fuel-out branch is unreachable from the wrappers.
-/

/-- Token tags, as in `enum JsonTokenType` (`Column` is the colon). -/
inductive JsonTokenType where
  | LeftBrace
  | RightBrace
  | Comma
  | String
  | Column
  | LeftBracket
  | RightBracket
  | Number
  | True
  | False
  | Null
deriving DecidableEq, Repr

/-- A token: a slice of the source plus its tag (`struct JsonToken`). -/
structure JsonToken where
  slice : List Char
  token_type : JsonTokenType
deriving DecidableEq, Repr

/-- Rust `char::is_whitespace`: the Unicode `White_Space` property, given by
code points (U+0009..U+000D, U+0020, U+0085, U+00A0, U+1680, U+2000..U+200A,
U+2028, U+2029, U+202F, U+205F, U+3000). -/
def rustIsWhitespace (c : Char) : Bool :=
  let n := c.toNat
  if (9 ≤ n ∧ n ≤ 13) ∨ n = 32 ∨ n = 133 ∨ n = 160 ∨ n = 5760 ∨
      (8192 ≤ n ∧ n ≤ 8202) ∨ n = 8232 ∨ n = 8233 ∨ n = 8239 ∨ n = 8287 ∨ n = 12288
  then true else false

/-- The single-character tokens recognized first in the `lex` loop. -/
def singleCharType (c : Char) : Option JsonTokenType :=
  if c = '{' then some .LeftBrace
  else if c = '}' then some .RightBrace
  else if c = ',' then some .Comma
  else if c = ':' then some .Column
  else if c = '[' then some .LeftBracket
  else if c = ']' then some .RightBracket
  else none

/-- String scanner: the `'"'` arm of `lex`.  Input is the text after the
opening quote; returns the consumed characters (through the closing quote
inclusive) and the rest of the input.  `none` models the panics (unexpected
escape, end of file inside a string). -/
def lexStringF : Nat → List Char → Option (List Char × List Char)
  | 0, _ => none
  | fuel + 1, cs =>
    match cs with
    | [] => none
    | c :: rest =>
      if c = '\\' then
        match rest with
        | [] => none
        | e :: rest' =>
          if e = '"' ∨ e = '\\' ∨ e = '/' ∨ e = 'b' ∨ e = 'f' ∨ e = 'n' ∨ e = 'r' ∨ e = 't' then
            match lexStringF fuel rest' with
            | some (co, r) => some (c :: e :: co, r)
            | none => none
          else if e = 'u' then
            -- `forward(&mut indices, 4)`: skip 4 characters (silently fewer at
            -- EOF, in which case the next loop iteration hits end of file).
            match lexStringF fuel (rest'.drop 4) with
            | some (co, r) => some (c :: e :: rest'.take 4 ++ co, r)
            | none => none
          else none
      else if c = '"' then some ([c], rest)
      else
        match lexStringF fuel rest with
        | some (co, r) => some (c :: co, r)
        | none => none

/-- The string scanner applied to the text after the opening quote.  Each
fuel unit consumes at least one character, so `length + 1` fuel never runs
out (`lexStringF_mono` below). -/
def lexString (cs : List Char) : Option (List Char × List Char) :=
  lexStringF (cs.length + 1) cs

/-- States of the number scanner (`enum NumberLexerState`). -/
inductive NumberLexerState where
  | Sign
  | FirstDigits
  | FirstZero
  | FractionDot
  | FractionDigits
  | Exponent
  | ExponentSign
  | ExponentDigits
deriving DecidableEq, Repr

/-- Initial state of `lex_number` from the first character of the number. -/
def numInitState (c : Char) : NumberLexerState :=
  if c = '-' then .Sign
  else if c = '0' then .FirstZero
  else .FirstDigits

/-- Number scanner (`fn lex_number`), applied to the characters after the
first one.  Returns the further characters consumed into the number slice,
the terminating character the scanner consumed past the number's end (if the
input did not simply end), and the rest of the input after it.  `none` models
the panics. -/
def lexNumber : NumberLexerState → List Char → Option (List Char × Option Char × List Char)
  | st, [] =>
    -- `Sign` panics at end of file; any other state breaks successfully
    match st with
    | .Sign => none
    | _ => some ([], none, [])
  | .Sign, c :: rest =>
    if c = '0' then
      match lexNumber .FirstZero rest with
      | some (co, t, r) => some (c :: co, t, r)
      | none => none
    else if c.isDigit then
      match lexNumber .FirstDigits rest with
      | some (co, t, r) => some (c :: co, t, r)
      | none => none
    else none
  | .FirstDigits, c :: rest =>
    if c.isDigit then
      match lexNumber .FirstDigits rest with
      | some (co, t, r) => some (c :: co, t, r)
      | none => none
    else if c = '.' then
      match lexNumber .FractionDot rest with
      | some (co, t, r) => some (c :: co, t, r)
      | none => none
    else if c = 'e' ∨ c = 'E' then
      match lexNumber .Exponent rest with
      | some (co, t, r) => some (c :: co, t, r)
      | none => none
    else some ([], some c, rest)
  | .FirstZero, c :: rest =>
    if c.isDigit ∨ c = '-' then none
    else if c = '.' then
      match lexNumber .FractionDot rest with
      | some (co, t, r) => some (c :: co, t, r)
      | none => none
    else if c = 'e' ∨ c = 'E' then
      match lexNumber .Exponent rest with
      | some (co, t, r) => some (c :: co, t, r)
      | none => none
    else some ([], some c, rest)
  | .FractionDot, c :: rest =>
    if c.isDigit then
      match lexNumber .FractionDigits rest with
      | some (co, t, r) => some (c :: co, t, r)
      | none => none
    else none
  | .FractionDigits, c :: rest =>
    if c.isDigit then
      match lexNumber .FractionDigits rest with
      | some (co, t, r) => some (c :: co, t, r)
      | none => none
    else if c = 'e' ∨ c = 'E' then
      match lexNumber .Exponent rest with
      | some (co, t, r) => some (c :: co, t, r)
      | none => none
    else some ([], some c, rest)
  | .Exponent, c :: rest =>
    if c.isDigit then
      match lexNumber .ExponentDigits rest with
      | some (co, t, r) => some (c :: co, t, r)
      | none => none
    else if c = '-' ∨ c = '+' then
      match lexNumber .ExponentSign rest with
      | some (co, t, r) => some (c :: co, t, r)
      | none => none
    else none
  | .ExponentSign, c :: rest =>
    if c.isDigit then
      match lexNumber .ExponentDigits rest with
      | some (co, t, r) => some (c :: co, t, r)
      | none => none
    else none
  | .ExponentDigits, c :: rest =>
    if c.isDigit then
      match lexNumber .ExponentDigits rest with
      | some (co, t, r) => some (c :: co, t, r)
      | none => none
    else some ([], some c, rest)

/-- The string arm of the `lex` loop. -/
def lexStringTok (lx : List Char → Option (List JsonToken)) (c : Char)
    (cs : List Char) : Option (List JsonToken) :=
  match lexString cs with
  | some (co, rest) => Option.map (fun ts => ⟨c :: co, .String⟩ :: ts) (lx rest)
  | none => none

/-- After a number, the consumed-ahead terminating character is
re-synthesized as a `Comma`, `RightBrace` or `RightBracket` token; any other
non-whitespace terminator is a fatal error. -/
def lexNumTerm (lx : List Char → Option (List JsonToken)) (numTok : JsonToken)
    (term : Option Char) (rest : List Char) : Option (List JsonToken) :=
  match term with
  | some t =>
    if t = ',' then Option.map (fun ts => numTok :: ⟨[t], .Comma⟩ :: ts) (lx rest)
    else if t = '}' then Option.map (fun ts => numTok :: ⟨[t], .RightBrace⟩ :: ts) (lx rest)
    else if t = ']' then Option.map (fun ts => numTok :: ⟨[t], .RightBracket⟩ :: ts) (lx rest)
    else if rustIsWhitespace t then Option.map (fun ts => numTok :: ts) (lx rest)
    else none
  | none => Option.map (fun ts => numTok :: ts) (lx rest)

/-- The number arm of the `lex` loop. -/
def lexNumberTok (lx : List Char → Option (List JsonToken)) (c : Char)
    (cs : List Char) : Option (List JsonToken) :=
  match lexNumber (numInitState c) cs with
  | some (co, term, rest) => lexNumTerm lx ⟨c :: co, .Number⟩ term rest
  | none => none

/-- The keyword arms (`true` / `false` / `null`): a fixed-length literal
match of the characters after the dispatch character, else a fatal error. -/
def lexKeyword (lx : List Char → Option (List JsonToken)) (c : Char)
    (cs : List Char) (word : List Char) (tt : JsonTokenType) : Option (List JsonToken) :=
  if cs.take word.length = word then
    Option.map (fun ts => ⟨c :: word, tt⟩ :: ts) (lx (cs.drop word.length))
  else none

/-- The non-single-character dispatch of the `lex` loop: string, number,
keywords, else the fatal "invalid char" error. -/
def lexOther (lx : List Char → Option (List JsonToken)) (c : Char)
    (cs : List Char) : Option (List JsonToken) :=
  if c = '"' then lexStringTok lx c cs
  else if c = '-' ∨ c.isDigit then lexNumberTok lx c cs
  else if c = 't' then lexKeyword lx c cs ['r', 'u', 'e'] .True
  else if c = 'f' then lexKeyword lx c cs ['a', 'l', 's', 'e'] .False
  else if c = 'n' then lexKeyword lx c cs ['u', 'l', 'l'] .Null
  else none

/-- One step of the main `lex` loop, with `lx` lexing the remaining input.
Faithfully mirrors the `while let` body: whitespace skip, single-character
tokens, then the sub-scanners. -/
def lexStep (lx : List Char → Option (List JsonToken)) : List Char → Option (List JsonToken)
  | [] => some []
  | c :: cs =>
    if rustIsWhitespace c then lx cs
    else
      match singleCharType c with
      | some tt => Option.map (fun ts => ⟨[c], tt⟩ :: ts) (lx cs)
      | none => lexOther lx c cs

/-- Fuelled main lexer loop. -/
def lexFuel : Nat → List Char → Option (List JsonToken)
  | 0 => fun _ => none
  | fuel + 1 => lexStep (lexFuel fuel)

/-- The lexer, `pub fn lex`.  `none` models a (fatal) lexing panic. -/
def lex (s : List Char) : Option (List JsonToken) :=
  lexFuel (s.length + 1) s

/-! ### Numbers (`JsonNumber`) and the standard-library parses it relies on -/

/-- Drop a (possibly empty) run of leading ASCII digits. -/
def dropDigits : List Char → List Char
  | [] => []
  | c :: cs => if c.isDigit then dropDigits cs else c :: cs

/-- Consume one or more leading ASCII digits; return the rest. -/
def digits1 : List Char → Option (List Char)
  | [] => none
  | c :: cs => if c.isDigit then some (dropDigits cs) else none

/-- Value of a digit run (`none` on a non-digit). -/
def digitsValAux : List Char → Nat → Option Nat
  | [], acc => some acc
  | c :: cs, acc => if c.isDigit then digitsValAux cs (acc * 10 + (c.toNat - 48)) else none

/-- Modelled from the Rust standard library: `i64::from_str` — an optional
sign, one or more digits, and the value must fit in `i64`. -/
def i64FromStr (s : List Char) : Option Int :=
  let signRest : Int × List Char :=
    match s with
    | '+' :: r => (1, r)
    | '-' :: r => (-1, r)
    | r => (1, r)
  match signRest.2 with
  | [] => none
  | _ =>
    match digitsValAux signRest.2 0 with
    | none => none
    | some n =>
      let v : Int := signRest.1 * n
      if -(2 ^ 63) ≤ v ∧ v ≤ 2 ^ 63 - 1 then some v else none

/-- Exponent tail after the `e`/`E`: optional sign then one or more digits,
consuming the whole rest of the string. -/
def expTailOk : List Char → Bool
  | [] => false
  | c :: cs =>
    if c = '+' ∨ c = '-' then
      match digits1 cs with
      | some [] => true
      | _ => false
    else
      match digits1 (c :: cs) with
      | some [] => true
      | _ => false

/-- An optional exponent closing the string. -/
def expOk : List Char → Bool
  | [] => true
  | c :: cs => if c = 'e' ∨ c = 'E' then expTailOk cs else false

/-- After the integer `Count`: optionally `.` and more digits, then an
optional exponent, closing the string. -/
def afterCountOk : List Char → Bool
  | [] => true
  | c :: r => if c = '.' then expOk (dropDigits r) else expOk (c :: r)

/-- The `Number` production of the `f64::from_str` grammar. -/
def numberOk : List Char → Bool
  | [] => false
  | c :: r =>
    if c = '.' then
      match digits1 r with
      | some rest => expOk rest
      | none => false
    else
      match digits1 (c :: r) with
      | some rest => afterCountOk rest
      | none => false

/-- ASCII lower-casing, for the case-insensitive `inf` / `nan` forms. -/
def charLower (c : Char) : Char :=
  if 'A' ≤ c ∧ c ≤ 'Z' then Char.ofNat (c.toNat + 32) else c

/-- ASCII-case-insensitive comparison against a lowercase word. -/
def lowerEq (s : List Char) (t : List Char) : Bool :=
  s.map charLower = t

/-- Modelled from the Rust standard library: whether `f64::from_str` succeeds,
per its documented grammar
`Float ::= Sign? ( 'inf' | 'infinity' | 'nan' | Number )` (case-insensitive
keywords).  Only success is modelled; the resulting float value cannot be. -/
def f64FromStrOk (s : List Char) : Bool :=
  let rest : List Char :=
    match s with
    | c :: r => if c = '+' ∨ c = '-' then r else s
    | [] => s
  lowerEq rest ['i', 'n', 'f'] || lowerEq rest ['i', 'n', 'f', 'i', 'n', 'i', 't', 'y'] ||
    lowerEq rest ['n', 'a', 'n'] || numberOk rest

/-- A number value (`enum JsonNumber`): an exact `i64`, or an `f64` kept as
its source slice (see the header comment). -/
inductive JsonNumber where
  | Integer (n : Int)
  | Float (slice : List Char)
deriving DecidableEq, Repr

/-- `JsonNumber::parse`: integer parse first, else float parse whose
`unwrap` panics (`none`) when the float grammar rejects the slice. -/
def JsonNumber.parse (slice : List Char) : Option JsonNumber :=
  match i64FromStr slice with
  | some n => some (.Integer n)
  | none => if f64FromStrOk slice then some (.Float slice) else none

/-! ### Values, objects, errors -/

/-- A JSON value (`enum JsonValue`).  The `Object` payload models the
`HashMap`: see `insertHM` / `lookupHM`. -/
inductive JsonValue where
  | String (s : List Char)
  | Number (n : JsonNumber)
  | Boolean (b : Bool)
  | Null
  | Array (xs : List JsonValue)
  | Object (entries : List (List Char × JsonValue))
deriving Repr

/-- Modelled from the Rust standard library: `HashMap::insert` — replaces the
value of an existing key, otherwise adds the binding.  (The association list
keeps a deterministic order; `HashMap` equality is order-insensitive, and
every object equality proved below compares maps built by identical insert
sequences, where the two notions agree.) -/
def insertHM (m : List (List Char × JsonValue)) (k : List Char) (v : JsonValue) :
    List (List Char × JsonValue) :=
  match m with
  | [] => [(k, v)]
  | (k', v') :: rest => if k' = k then (k, v) :: rest else (k', v') :: insertHM rest k v

/-- Modelled from the Rust standard library: `HashMap::get`. -/
def lookupHM (m : List (List Char × JsonValue)) (k : List Char) : Option JsonValue :=
  match m with
  | [] => none
  | (k', v') :: rest => if k' = k then some v' else lookupHM rest k

/-- Quote-stripping `&slice[1..(slice.len() - 1)]` used for string values and
object keys. -/
def stripQuotes (s : List Char) : List Char :=
  (s.drop 1).dropLast

/-- The error type (`struct ParseError`): offending token, a window of
surrounding tokens, and a message. -/
structure ParseError where
  token : JsonToken
  view : List JsonToken
  msg : String
deriving DecidableEq, Repr

/-- Result of a parser call: `none` is a Rust panic, `some (.error e)` a
returned `ParseError`, `some (.ok v)` a parsed value. -/
abbrev PRes := Option (Except ParseError JsonValue)

/-- States of the object parser (`enum ObjectParserState`). -/
inductive ObjState where
  | BeforeKey
  | Key (key : JsonToken)
  | Column (key : JsonToken) (start : Nat)
deriving DecidableEq, Repr

/-! ### The structural parser -/

/-- The `parse_array` loop (`fn parse_array`), with the recursive value
parser abstracted as `pv`.  Instead of the index pair `(start, idx)` into the
interior slice, the accumulated element slice `cur = tokens[start..idx]` is
carried directly and the remaining suffix `tokens[idx..]` is scanned; the
end-of-input test `idx > start` is `cur ≠ []`.  Depth counters and the
depth-guarded comma split are as in the source. -/
def arrLoopG (pv : List JsonToken → PRes) :
    List JsonToken → List JsonToken → Int → Int → List JsonValue → PRes
  | [], cur, _, _, acc =>
    if cur = [] then some (.ok (.Array acc))
    else
      match pv cur with
      | some (.ok v) => some (.ok (.Array (acc ++ [v])))
      | some (.error e) => some (.error e)
      | none => none
  | tok :: rest, cur, nb, nbr, acc =>
    match tok.token_type with
    | .LeftBracket => arrLoopG pv rest (cur ++ [tok]) (nb + 1) nbr acc
    | .LeftBrace => arrLoopG pv rest (cur ++ [tok]) nb (nbr + 1) acc
    | .RightBracket => arrLoopG pv rest (cur ++ [tok]) (nb - 1) nbr acc
    | .RightBrace => arrLoopG pv rest (cur ++ [tok]) nb (nbr - 1) acc
    | .Comma =>
      if nb = 0 ∧ nbr = 0 then
        match pv cur with
        | some (.ok v) => arrLoopG pv rest [] nb nbr (acc ++ [v])
        | some (.error e) => some (.error e)
        | none => none
      else arrLoopG pv rest (cur ++ [tok]) nb nbr acc
    | _ => arrLoopG pv rest (cur ++ [tok]) nb nbr acc

/-- The `parse_object` state machine (`fn parse_object`).  `all` is the whole
interior slice (used for the error views), `idx` the current index into it,
and — as in `arrLoopG` — the pending value slice `cur = tokens[start..idx]`
is carried alongside the `Column(key, start)` state, with
`cur.length = idx - start` at every reachable call.  An error view
`&tokens[(idx - 1)..]` with `idx = 0`, or an index `tokens[idx - 1]` out of
range, is the modelled panic (usize underflow / out-of-bounds). -/
def objLoopG (pv : List JsonToken → PRes) (all : List JsonToken) :
    List JsonToken → Nat → ObjState → List JsonToken → Int → Int →
    List (List Char × JsonValue) → PRes
  | [], idx, state, cur, _, _, obj =>
    match state with
    | .BeforeKey => some (.ok (.Object obj))
    | .Column key start =>
      if start < idx then
        match pv cur with
        | some (.ok v) => some (.ok (.Object (insertHM obj (stripQuotes key.slice) v)))
        | some (.error e) => some (.error e)
        | none => none
      else if idx = 0 then none
      else
        match all.drop (idx - 1) with
        | t :: _ =>
          some (.error ⟨t, all, "start(" ++ toString start ++ ") >= idx(" ++ toString idx ++ ")"⟩)
        | [] => none
    | .Key _ =>
      if idx = 0 then none
      else
        match all.drop (idx - 1) with
        | t :: _ => some (.error ⟨t, all, "Incomplete object"⟩)
        | [] => none
  | tok :: rest, idx, state, cur, nb, nbr, obj =>
    match state with
    | .BeforeKey =>
      if tok.token_type ≠ .String then
        if idx = 0 then none
        else some (.error ⟨tok, all.drop (idx - 1), "Unexpected token in place of string key in object"⟩)
      else objLoopG pv all rest (idx + 1) (.Key tok) [] nb nbr obj
    | .Key key =>
      if tok.token_type ≠ .Column then
        some (.error ⟨tok, all, "Expected ':' token, found '\x7b\x7d'"⟩)
      else objLoopG pv all rest (idx + 1) (.Column key (idx + 1)) [] nb nbr obj
    | .Column key start =>
      match tok.token_type with
      | .LeftBracket => objLoopG pv all rest (idx + 1) (.Column key start) (cur ++ [tok]) (nb + 1) nbr obj
      | .LeftBrace => objLoopG pv all rest (idx + 1) (.Column key start) (cur ++ [tok]) nb (nbr + 1) obj
      | .RightBracket => objLoopG pv all rest (idx + 1) (.Column key start) (cur ++ [tok]) (nb - 1) nbr obj
      | .RightBrace => objLoopG pv all rest (idx + 1) (.Column key start) (cur ++ [tok]) nb (nbr - 1) obj
      | .Comma =>
        if nb = 0 ∧ nbr = 0 then
          match pv cur with
          | some (.ok v) =>
            objLoopG pv all rest (idx + 1) .BeforeKey [] nb nbr (insertHM obj (stripQuotes key.slice) v)
          | some (.error e) => some (.error e)
          | none => none
        else objLoopG pv all rest (idx + 1) (.Column key start) (cur ++ [tok]) nb nbr obj
      | _ => objLoopG pv all rest (idx + 1) (.Column key start) (cur ++ [tok]) nb nbr obj

/-- The `LeftBracket` arm of `parse_value`: length and closing-bracket
checks, then the interior (both outer tokens dropped) goes to `parse_array`.
A context window `last_idx - 3` with `last_idx < 3` underflows (panic). -/
def parseBracket (pv : List JsonToken → PRes) (tok : JsonToken)
    (restAll : List JsonToken) : PRes :=
  match restAll.getLast? with
  | none => some (.error ⟨tok, [tok], "Incomplete array"⟩)
  | some lastTok =>
    if lastTok.token_type ≠ .RightBracket then
      if restAll.length < 3 then none
      else some (.error ⟨lastTok, (tok :: restAll).drop (restAll.length - 3),
        "Invalid token at the end of document"⟩)
    else arrLoopG pv restAll.dropLast [] 0 0 []

/-- The `LeftBrace` arm of `parse_value`, analogously to `parseBracket`. -/
def parseBrace (pv : List JsonToken → PRes) (tok : JsonToken)
    (restAll : List JsonToken) : PRes :=
  match restAll.getLast? with
  | none => some (.error ⟨tok, [tok], "Incomplete object"⟩)
  | some lastTok =>
    if lastTok.token_type ≠ .RightBrace then
      if restAll.length < 3 then none
      else some (.error ⟨lastTok, (tok :: restAll).drop (restAll.length - 3),
        "Invalid token at the end of document"⟩)
    else objLoopG pv restAll.dropLast restAll.dropLast 0 .BeforeKey [] 0 0 []

/-- A primitive-token arm of `parse_value`: the source matches on the pair
`(token_type, len)` with the literal length `1`, so the value is produced
only when the token is the sole one in the slice. -/
def parseSole (value : JsonValue) (tok : JsonToken) (restAll : List JsonToken) : PRes :=
  match restAll with
  | [] => some (.ok value)
  | _ => some (.error ⟨tok, tok :: restAll, "Invalid JSON token stream"⟩)

/-- The `Number` arm of `parse_value`: in the sole-token case,
`JsonNumber::parse` may panic (its float `unwrap`). -/
def parseNumberTok (tok : JsonToken) (restAll : List JsonToken) : PRes :=
  match restAll with
  | [] =>
    match JsonNumber.parse tok.slice with
    | some n => some (.ok (.Number n))
    | none => none
  | _ => some (.error ⟨tok, tok :: restAll, "Invalid JSON token stream"⟩)

/-- Dispatch of `parse_value` on the first token's type (the source matches
on `(token_type, len)`; the length tests live in the per-arm helpers). -/
def parseDispatch (pv : List JsonToken → PRes) (tok : JsonToken)
    (restAll : List JsonToken) : PRes :=
  match tok.token_type with
  | .LeftBracket => parseBracket pv tok restAll
  | .LeftBrace => parseBrace pv tok restAll
  | .String => parseSole (.String (stripQuotes tok.slice)) tok restAll
  | .Number => parseNumberTok tok restAll
  | .True => parseSole (.Boolean true) tok restAll
  | .False => parseSole (.Boolean false) tok restAll
  | .Null => parseSole .Null tok restAll
  | _ => some (.error ⟨tok, tok :: restAll, "Invalid JSON token stream"⟩)

/-- One layer of `fn parse_value`, with the recursive calls abstracted as
`pv`.  An empty slice is the `"Empty JSON is invalid JSON"` panic. -/
def parseStep (pv : List JsonToken → PRes) : List JsonToken → PRes
  | [] => none
  | tok :: restAll => parseDispatch pv tok restAll

/-- Fuelled recursive value parser. -/
def parseValueF : Nat → List JsonToken → PRes
  | 0 => fun _ => none
  | fuel + 1 => parseStep (parseValueF fuel)

/-- `fn parse_value` on a token slice. -/
def parseValue (ts : List JsonToken) : PRes :=
  parseValueF (ts.length + 1) ts

/-- `fn parse_array` on an interior slice. -/
def parseArray (ts : List JsonToken) : PRes :=
  arrLoopG parseValue ts [] 0 0 []

/-- `fn parse_object` on an interior slice. -/
def parseObject (ts : List JsonToken) : PRes :=
  objLoopG parseValue ts ts 0 .BeforeKey [] 0 0 []

/-- `pub fn parse`: lex, then parse the token sequence; any lexing panic or
`ParseError` aborts (`none`). -/
def parse (s : List Char) : Option JsonValue :=
  match lex s with
  | some tokens =>
    match parseValue tokens with
    | some (.ok v) => some v
    | _ => none
  | none => none

def optList : Option Char → List Char
  | none => []
  | some c => [c]


/-! ### Depth bookkeeping for token slices -/

/-- Bracket-depth delta of one token (`n_bracket`). -/
def dB (t : JsonTokenType) : Int :=
  match t with
  | .LeftBracket => 1
  | .RightBracket => -1
  | _ => 0

/-- Brace-depth delta of one token (`n_brace`). -/
def dR (t : JsonTokenType) : Int :=
  match t with
  | .LeftBrace => 1
  | .RightBrace => -1
  | _ => 0

/-- Net bracket depth of a slice. -/
def netB : List JsonToken → Int
  | [] => 0
  | t :: ts => dB t.token_type + netB ts

/-- Net brace depth of a slice. -/
def netR : List JsonToken → Int
  | [] => 0
  | t :: ts => dR t.token_type + netR ts

/-- Scanning `ts` with the depth counters started at `(nb, nbr)`: no `Comma`
token is met while both counters are zero (so the loops never split there). -/
def sepFree : List JsonToken → Int → Int → Bool
  | [], _, _ => true
  | t :: ts, nb, nbr =>
    if t.token_type = .Comma ∧ nb = 0 ∧ nbr = 0 then false
    else sepFree ts (nb + dB t.token_type) (nbr + dR t.token_type)

/-- Scanning `ts` from `(nb, nbr)`: both counters stay nonnegative at every
token (the shape of the interior of a well-parsed array or object). -/
def interiorOk : List JsonToken → Int → Int → Bool
  | [], _, _ => true
  | t :: ts, nb, nbr =>
    (if 0 ≤ nb ∧ 0 ≤ nbr then true else false) &&
      interiorOk ts (nb + dB t.token_type) (nbr + dR t.token_type)

/-- Scanning `ts` from `(nb, nbr)`: counters stay nonnegative and no `Comma`
is met at `(0, 0)` (the shape of a single well-parsed value slice). -/
def chunkOk : List JsonToken → Int → Int → Bool
  | [], _, _ => true
  | t :: ts, nb, nbr =>
    (if 0 ≤ nb ∧ 0 ≤ nbr ∧ ¬(t.token_type = .Comma ∧ nb = 0 ∧ nbr = 0) then true else false) &&
      chunkOk ts (nb + dB t.token_type) (nbr + dR t.token_type)


/-- Shape facts of a slice on which `parse_value` succeeds. -/
def chunkShape (vs : List JsonToken) : Prop :=
  chunkOk vs 0 0 = true ∧ netB vs = 0 ∧ netR vs = 0

/-- Shape facts of an interior slice on which a sub-parser succeeds. -/
def interiorShape (ts : List JsonToken) : Prop :=
  interiorOk ts 0 0 = true ∧ netB ts = 0 ∧ netR ts = 0


/-- The slice ends with a dangling exponent introducer or sign. -/
def expEndBad (co : List Char) : Bool :=
  match co.getLast? with
  | some x => if x = 'e' ∨ x = 'E' ∨ x = '+' ∨ x = '-' then true else false
  | none => false

/-- The residual of the `f64::from_str` number grammar at each scanner
state: whether the characters consumed from this state onward keep the
whole slice acceptable. -/
def resid : NumberLexerState → List Char → Bool
  | .Sign, co => numberOk co
  | .FirstZero, co => afterCountOk co
  | .FirstDigits, co => afterCountOk (dropDigits co)
  | .FractionDot, co => expOk (dropDigits co)
  | .FractionDigits, co => expOk (dropDigits co)
  | .Exponent, co => expTailOk co
  | .ExponentSign, co =>
    match co with
    | d :: ds => d.isDigit && ds.all (·.isDigit)
    | [] => false
  | .ExponentDigits, co => co.all (·.isDigit)


/-! ### Basic facts about the lexer -/

example : parse "5".toList = some (.Number (.Integer 5)) := by rfl
example : parse "6.626e-34".toList = some (.Number (.Float "6.626e-34".toList)) := by rfl
example : parse "true".toList = some (.Boolean true) := by rfl
example : parse "null".toList = some .Null := by rfl
example : parse "\"Hello\"".toList = some (.String "Hello".toList) := by rfl
example : parse "[]".toList = some (.Array []) := by rfl
example : parse "{}".toList = some (.Object []) := by rfl
example : parse "[[1,2],[3,4]]".toList =
    some (.Array [.Array [.Number (.Integer 1), .Number (.Integer 2)],
      .Array [.Number (.Integer 3), .Number (.Integer 4)]]) := by rfl


theorem lexStringF_append :
    ∀ fuel cs co r, lexStringF fuel cs = some (co, r) → co ++ r = cs := by
  intro fuel
  induction fuel with
  | zero => intro cs co r h; simp [lexStringF] at h
  | succ fuel ih =>
    intro cs co r h
    match cs with
    | [] => simp [lexStringF] at h
    | c :: rest =>
      simp only [lexStringF] at h
      split at h
      · match rest with
        | [] => simp at h
        | e :: rest' =>
          simp only at h
          split at h
          · split at h
            · rename_i heq
              simp only [Option.some.injEq, Prod.mk.injEq] at h
              obtain ⟨h1, h2⟩ := h
              have h3 := ih _ _ _ heq
              subst h1; subst h2
              simp [← h3]
            · exact absurd h (by simp)
          · split at h
            · split at h
              · rename_i heq
                simp only [Option.some.injEq, Prod.mk.injEq] at h
                obtain ⟨h1, h2⟩ := h
                have h3 := ih _ _ _ heq
                subst h1; subst h2
                simp [List.append_assoc, h3, List.take_append_drop]
              · exact absurd h (by simp)
            · exact absurd h (by simp)
      · split at h
        · simp only [Option.some.injEq, Prod.mk.injEq] at h
          obtain ⟨h1, h2⟩ := h
          subst h1; subst h2
          rename_i hc hq
          simp [hq]
        · split at h
          · rename_i heq
            simp only [Option.some.injEq, Prod.mk.injEq] at h
            obtain ⟨h1, h2⟩ := h
            have h3 := ih _ _ _ heq
            subst h1; subst h2
            simp [← h3]
          · exact absurd h (by simp)

theorem lexNumber_append :
    ∀ cs st co t r, lexNumber st cs = some (co, t, r) → co ++ optList t ++ r = cs := by
  intro cs
  induction cs with
  | nil =>
    intro st co t r h
    rw [lexNumber.eq_def] at h
    rcases st <;> simp only at h <;>
      first
      | (simp only [Option.some.injEq, Prod.mk.injEq] at h
         obtain ⟨h1, h2, h3⟩ := h
         subst h1; subst h3
         rw [← h2]
         simp [optList])
      | exact absurd h (by simp)
  | cons c rest ih =>
    intro st co t r h
    rw [lexNumber.eq_def] at h
    rcases st <;> simp only at h <;> (repeat' split at h) <;>
      first
      | (simp_all [optList]; done)
      | (simp only [Option.some.injEq, Prod.mk.injEq] at h
         obtain ⟨h1, h2, h3⟩ := h
         subst h1; subst h3
         rw [← h2]
         simp [optList]
         done)
      | (rename_i heq
         simp only [Option.some.injEq, Prod.mk.injEq] at h
         obtain ⟨h1, h2, h3⟩ := h
         have h4 := ih _ _ _ _ heq
         subst h1; subst h2; subst h3
         simp [optList, ← h4])

theorem lexString_append : ∀ cs co r, lexString cs = some (co, r) → co ++ r = cs :=
  fun cs co r h => lexStringF_append _ cs co r h

theorem lexStep_congr (lx1 lx2 : List Char → Option (List JsonToken)) :
    ∀ cs, (∀ r : List Char, r.length < cs.length → lx1 r = lx2 r) →
    lexStep lx1 cs = lexStep lx2 cs := by
  intro cs H
  cases cs with
  | nil => rfl
  | cons c cs =>
    simp only [lexStep]
    split
    · exact H _ (by simp)
    split
    · exact congrArg _ (H _ (by simp))
    · simp only [lexOther]
      split
      · -- string branch
        simp only [lexStringTok]
        split
        · rename_i co rest heq
          have hb := lexString_append _ _ _ heq
          refine congrArg _ (H _ ?_)
          have : rest.length ≤ cs.length := by
            rw [← hb]; simp
          simp; omega
        · rfl
      split
      · -- number branch
        simp only [lexNumberTok]
        split
        · rename_i co term rest heq
          have hb := lexNumber_append _ _ _ _ _ heq
          have hr : rest.length ≤ cs.length := by
            rw [← hb]; simp; omega
          simp only [lexNumTerm]
          split
          · split
            · exact congrArg _ (H _ (by simp; omega))
            split
            · exact congrArg _ (H _ (by simp; omega))
            split
            · exact congrArg _ (H _ (by simp; omega))
            split
            · exact congrArg _ (H _ (by simp; omega))
            · rfl
          · exact congrArg _ (H _ (by simp; omega))
        · rfl
      split
      · -- `true`
        simp only [lexKeyword]
        split
        · exact congrArg _ (H _ (by simp [List.length_drop]; omega))
        · rfl
      split
      · -- `false`
        simp only [lexKeyword]
        split
        · exact congrArg _ (H _ (by simp [List.length_drop]; omega))
        · rfl
      split
      · -- `null`
        simp only [lexKeyword]
        split
        · exact congrArg _ (H _ (by simp [List.length_drop]; omega))
        · rfl
      · rfl

theorem lexFuel_mono :
    ∀ f1 f2 cs, cs.length < f1 → cs.length < f2 → lexFuel f1 cs = lexFuel f2 cs := by
  intro f1
  induction f1 with
  | zero => intro f2 cs h1; omega
  | succ g1 ih =>
    intro f2 cs h1 h2
    match f2, h2 with
    | g2 + 1, _ =>
      simp only [lexFuel]
      exact lexStep_congr _ _ cs fun r hr => ih g2 r (by omega) (by omega)

theorem lex_unfold (s : List Char) : lex s = lexStep lex s := by
  show lexFuel (s.length + 1) s = _
  simp only [lexFuel]
  exact lexStep_congr _ _ s fun r hr => lexFuel_mono _ _ r (by omega) (by omega)


/-! ### Fuel irrelevance for the parser -/

theorem arrLoopG_congr (pv1 pv2 : List JsonToken → PRes) :
    ∀ rest cur nb nbr acc,
      (∀ ws : List JsonToken, ws.length ≤ cur.length + rest.length → pv1 ws = pv2 ws) →
      arrLoopG pv1 rest cur nb nbr acc = arrLoopG pv2 rest cur nb nbr acc := by
  intro rest
  induction rest with
  | nil =>
    intro cur nb nbr acc H
    simp only [arrLoopG]
    split
    · rfl
    · rw [H cur (by simp)]
  | cons tok rest ih =>
    intro cur nb nbr acc H
    simp only [arrLoopG]
    split <;>
      first
      | (apply ih; intro ws hw; apply H; simp at hw ⊢; omega)
      | (split
         · rw [H cur (by simp)]
           split <;> try rfl
           apply ih; intro ws hw; apply H; simp at hw ⊢; omega
         · apply ih; intro ws hw; apply H; simp at hw ⊢; omega)

theorem objLoopG_congr (pv1 pv2 : List JsonToken → PRes) (all : List JsonToken) :
    ∀ rest idx state cur nb nbr obj,
      (∀ ws : List JsonToken, ws.length ≤ cur.length + rest.length → pv1 ws = pv2 ws) →
      objLoopG pv1 all rest idx state cur nb nbr obj =
        objLoopG pv2 all rest idx state cur nb nbr obj := by
  intro rest
  induction rest with
  | nil =>
    intro idx state cur nb nbr obj H
    simp only [objLoopG]
    split
    · rfl
    · split
      · rw [H cur (by simp)]
      · rfl
    · rfl
  | cons tok rest ih =>
    intro idx state cur nb nbr obj H
    simp only [objLoopG]
    split
    · split
      · rfl
      · apply ih; intro ws hw; apply H; simp at hw ⊢; omega
    · split
      · rfl
      · apply ih; intro ws hw; apply H; simp at hw ⊢; omega
    · split <;>
        first
        | (apply ih; intro ws hw; apply H; simp at hw ⊢; omega)
        | (split
           · rw [H cur (by simp)]
             split <;> try rfl
             apply ih; intro ws hw; apply H; simp at hw ⊢; omega
           · apply ih; intro ws hw; apply H; simp at hw ⊢; omega)

theorem parseStep_congr (pv1 pv2 : List JsonToken → PRes) :
    ∀ ts : List JsonToken,
      (∀ ws : List JsonToken, ws.length < ts.length → pv1 ws = pv2 ws) →
      parseStep pv1 ts = parseStep pv2 ts := by
  intro ts H
  cases ts with
  | nil => rfl
  | cons tok restAll =>
    show parseDispatch pv1 tok restAll = parseDispatch pv2 tok restAll
    have hlb : restAll.dropLast.length ≤ restAll.length := by
      simp [List.length_dropLast]
    simp only [parseDispatch]
    split <;> try rfl
    · -- LeftBracket
      simp only [parseBracket]
      split
      · rfl
      · split
        · rfl
        · apply arrLoopG_congr
          intro ws hw
          apply H
          simp at hw ⊢; omega
    · -- LeftBrace
      simp only [parseBrace]
      split
      · rfl
      · split
        · rfl
        · apply objLoopG_congr
          intro ws hw
          apply H
          simp at hw ⊢; omega

theorem parseValueF_mono :
    ∀ n ts f1 f2, ts.length ≤ n → ts.length < f1 → ts.length < f2 →
      parseValueF f1 ts = parseValueF f2 ts := by
  intro n
  induction n with
  | zero =>
    intro ts f1 f2 hn h1 h2
    match ts, hn with
    | [], _ =>
      match f1, h1, f2, h2 with
      | g1 + 1, _, g2 + 1, _ => rfl
  | succ n ih =>
    intro ts f1 f2 hn h1 h2
    match f1, h1, f2, h2 with
    | g1 + 1, _, g2 + 1, _ =>
      simp only [parseValueF]
      apply parseStep_congr
      intro ws hw
      exact ih ws g1 g2 (by omega) (by omega) (by omega)

theorem parseValue_unfold (ts : List JsonToken) : parseValue ts = parseStep parseValue ts := by
  show parseValueF (ts.length + 1) ts = _
  simp only [parseValueF]
  apply parseStep_congr
  intro ws hw
  exact parseValueF_mono ws.length ws _ _ le_rfl (by omega) (by omega)

theorem netB_append : ∀ xs ys : List JsonToken, netB (xs ++ ys) = netB xs + netB ys := by
  intro xs ys
  induction xs with
  | nil => simp [netB]
  | cons t xs ih => simp [netB, ih]; ring

theorem netR_append : ∀ xs ys : List JsonToken, netR (xs ++ ys) = netR xs + netR ys := by
  intro xs ys
  induction xs with
  | nil => simp [netR]
  | cons t xs ih => simp [netR, ih]; ring

theorem chunkOk_append :
    ∀ xs ys (nb nbr : Int), chunkOk (xs ++ ys) nb nbr =
      (chunkOk xs nb nbr && chunkOk ys (nb + netB xs) (nbr + netR xs)) := by
  intro xs
  induction xs with
  | nil => intro ys nb nbr; simp [chunkOk, netB, netR]
  | cons t xs ih =>
    intro ys nb nbr
    simp only [List.cons_append, chunkOk, netB, netR, Bool.and_assoc, List.append_eq]
    rw [ih]
    have e1 : nb + dB t.token_type + netB xs = nb + (dB t.token_type + netB xs) := by ring
    have e2 : nbr + dR t.token_type + netR xs = nbr + (dR t.token_type + netR xs) := by ring
    rw [e1, e2]

theorem interiorOk_append :
    ∀ xs ys (nb nbr : Int), interiorOk (xs ++ ys) nb nbr =
      (interiorOk xs nb nbr && interiorOk ys (nb + netB xs) (nbr + netR xs)) := by
  intro xs
  induction xs with
  | nil => intro ys nb nbr; simp [interiorOk, netB, netR]
  | cons t xs ih =>
    intro ys nb nbr
    simp only [List.cons_append, interiorOk, netB, netR, Bool.and_assoc, List.append_eq]
    rw [ih]
    have e1 : nb + dB t.token_type + netB xs = nb + (dB t.token_type + netB xs) := by ring
    have e2 : nbr + dR t.token_type + netR xs = nbr + (dR t.token_type + netR xs) := by ring
    rw [e1, e2]

theorem chunkOk_interiorOk :
    ∀ ts (nb nbr : Int), chunkOk ts nb nbr = true → interiorOk ts nb nbr = true := by
  intro ts
  induction ts with
  | nil => intros; rfl
  | cons t ts ih =>
    intro nb nbr h
    simp only [chunkOk, Bool.and_eq_true] at h
    obtain ⟨h1, h2⟩ := h
    split at h1
    · rename_i hc
      simp only [interiorOk, Bool.and_eq_true]
      exact ⟨by simp [hc.1, hc.2.1], ih _ _ h2⟩
    · exact absurd h1 (by simp)

theorem chunkOk_sepFree :
    ∀ ts (nb nbr : Int), chunkOk ts nb nbr = true → sepFree ts nb nbr = true := by
  intro ts
  induction ts with
  | nil => intros; rfl
  | cons t ts ih =>
    intro nb nbr h
    simp only [chunkOk, Bool.and_eq_true] at h
    obtain ⟨h1, h2⟩ := h
    split at h1
    · rename_i hc
      simp only [sepFree]
      rw [if_neg hc.2.2]
      exact ih _ _ h2
    · exact absurd h1 (by simp)

theorem interiorOk_shiftB :
    ∀ ts (nb nbr : Int), interiorOk ts nb nbr = true → chunkOk ts (nb + 1) nbr = true := by
  intro ts
  induction ts with
  | nil => intros; rfl
  | cons t ts ih =>
    intro nb nbr h
    simp only [interiorOk, Bool.and_eq_true] at h
    obtain ⟨h1, h2⟩ := h
    split at h1
    · rename_i hc
      simp only [chunkOk, Bool.and_eq_true]
      constructor
      · rw [if_pos]
        exact ⟨by omega, hc.2, by rintro ⟨-, hb, -⟩; omega⟩
      · have := ih (nb + dB t.token_type) (nbr + dR t.token_type) h2
        have he : nb + dB t.token_type + 1 = nb + 1 + dB t.token_type := by ring
        rwa [he] at this
    · exact absurd h1 (by simp)

theorem interiorOk_shiftR :
    ∀ ts (nb nbr : Int), interiorOk ts nb nbr = true → chunkOk ts nb (nbr + 1) = true := by
  intro ts
  induction ts with
  | nil => intros; rfl
  | cons t ts ih =>
    intro nb nbr h
    simp only [interiorOk, Bool.and_eq_true] at h
    obtain ⟨h1, h2⟩ := h
    split at h1
    · rename_i hc
      simp only [chunkOk, Bool.and_eq_true]
      constructor
      · rw [if_pos]
        exact ⟨hc.1, by omega, by rintro ⟨-, -, hb⟩; omega⟩
      · have := ih (nb + dB t.token_type) (nbr + dR t.token_type) h2
        have he : nbr + dR t.token_type + 1 = nbr + 1 + dR t.token_type := by ring
        rwa [he] at this
    · exact absurd h1 (by simp)

/-! ### Absorption: scanning past separator-free token runs -/

theorem arrLoopG_step (pv : List JsonToken → PRes) (t : JsonToken)
    (rest cur : List JsonToken) (nb nbr : Int) (acc : List JsonValue)
    (h : ¬(t.token_type = .Comma ∧ nb = 0 ∧ nbr = 0)) :
    arrLoopG pv (t :: rest) cur nb nbr acc =
      arrLoopG pv rest (cur ++ [t]) (nb + dB t.token_type) (nbr + dR t.token_type) acc := by
  cases ht : t.token_type <;> simp_all [arrLoopG, dB, dR, sub_eq_add_neg]

theorem arrLoopG_absorb (pv : List JsonToken → PRes) :
    ∀ ws (nb nbr : Int), sepFree ws nb nbr = true →
      ∀ tail cur acc, arrLoopG pv (ws ++ tail) cur nb nbr acc =
        arrLoopG pv tail (cur ++ ws) (nb + netB ws) (nbr + netR ws) acc := by
  intro ws
  induction ws with
  | nil => intro nb nbr h tail cur acc; simp [netB, netR]
  | cons t ws ih =>
    intro nb nbr h tail cur acc
    simp only [sepFree] at h
    split at h
    · exact absurd h (by simp)
    · rename_i hc
      rw [List.cons_append, arrLoopG_step pv t _ _ _ _ _ hc, ih _ _ h]
      have e1 : nb + dB t.token_type + netB ws = nb + netB (t :: ws) := by
        simp [netB]; ring
      have e2 : nbr + dR t.token_type + netR ws = nbr + netR (t :: ws) := by
        simp [netR]; ring
      rw [e1, e2, List.append_assoc]
      rfl

theorem arrLoopG_absorb_all (pv : List JsonToken → PRes) (ws : List JsonToken)
    (nb nbr : Int) (h : sepFree ws nb nbr = true) (cur : List JsonToken)
    (acc : List JsonValue) :
    arrLoopG pv ws cur nb nbr acc =
      arrLoopG pv [] (cur ++ ws) (nb + netB ws) (nbr + netR ws) acc := by
  conv_lhs => rw [← List.append_nil ws]
  exact arrLoopG_absorb pv ws nb nbr h [] cur acc

theorem objLoopG_step (pv : List JsonToken → PRes) (all : List JsonToken) (t : JsonToken)
    (rest : List JsonToken) (idx : Nat) (key : JsonToken) (start : Nat)
    (cur : List JsonToken) (nb nbr : Int) (obj : List (List Char × JsonValue))
    (h : ¬(t.token_type = .Comma ∧ nb = 0 ∧ nbr = 0)) :
    objLoopG pv all (t :: rest) idx (.Column key start) cur nb nbr obj =
      objLoopG pv all rest (idx + 1) (.Column key start) (cur ++ [t])
        (nb + dB t.token_type) (nbr + dR t.token_type) obj := by
  cases ht : t.token_type <;> simp_all [objLoopG, dB, dR, sub_eq_add_neg]

theorem objLoopG_absorb (pv : List JsonToken → PRes) (all : List JsonToken) :
    ∀ ws (nb nbr : Int), sepFree ws nb nbr = true →
      ∀ tail idx key start cur obj,
        objLoopG pv all (ws ++ tail) idx (.Column key start) cur nb nbr obj =
          objLoopG pv all tail (idx + ws.length) (.Column key start) (cur ++ ws)
            (nb + netB ws) (nbr + netR ws) obj := by
  intro ws
  induction ws with
  | nil => intro nb nbr h tail idx key start cur obj; simp [netB, netR]
  | cons t ws ih =>
    intro nb nbr h tail idx key start cur obj
    simp only [sepFree] at h
    split at h
    · exact absurd h (by simp)
    · rename_i hc
      rw [List.cons_append, objLoopG_step pv all t _ _ _ _ _ _ _ _ hc, ih _ _ h]
      have e1 : nb + dB t.token_type + netB ws = nb + netB (t :: ws) := by
        simp [netB]; ring
      have e2 : nbr + dR t.token_type + netR ws = nbr + netR (t :: ws) := by
        simp [netR]; ring
      have e3 : idx + 1 + ws.length = idx + (t :: ws).length := by
        simp; omega
      rw [e1, e2, e3, List.append_assoc]
      rfl

/-! ### Decomposition of successful loop runs -/

theorem arrLoopG_decomp (pv : List JsonToken → PRes) :
    ∀ rest cur (nb nbr : Int) acc v,
      arrLoopG pv rest cur nb nbr acc = some (.ok v) →
      (∃ γ t δ w, rest = γ ++ t :: δ ∧ t.token_type = .Comma ∧
        sepFree γ nb nbr = true ∧ nb + netB γ = 0 ∧ nbr + netR γ = 0 ∧
        pv (cur ++ γ) = some (.ok w) ∧
        arrLoopG pv δ [] 0 0 (acc ++ [w]) = some (.ok v)) ∨
      (sepFree rest nb nbr = true ∧
        ((cur ++ rest = [] ∧ v = .Array acc) ∨
          ∃ w, pv (cur ++ rest) = some (.ok w) ∧ v = .Array (acc ++ [w]))) := by
  intro rest
  induction rest with
  | nil =>
    intro cur nb nbr acc v h
    simp only [arrLoopG] at h
    right
    refine ⟨rfl, ?_⟩
    split at h
    · rename_i hcur
      left
      simp only [Option.some.injEq, Except.ok.injEq] at h
      exact ⟨by simp [hcur], h.symm⟩
    · rename_i hcur
      cases hpv : pv cur with
      | none => rw [hpv] at h; exact Option.noConfusion h
      | some ev =>
        cases ev with
        | error e => rw [hpv] at h; exact Except.noConfusion (Option.some.inj h)
        | ok w =>
          rw [hpv] at h
          have h' : JsonValue.Array (acc ++ [w]) = v := by
            simpa using h
          right
          exact ⟨w, by simpa using hpv, h'.symm⟩
  | cons t rest ih =>
    intro cur nb nbr acc v h
    by_cases hsep : t.token_type = .Comma ∧ nb = 0 ∧ nbr = 0
    · obtain ⟨hc, hnb, hnbr⟩ := hsep
      subst hnb; subst hnbr
      simp only [arrLoopG, hc, if_pos (⟨rfl, rfl⟩ : (0 : Int) = 0 ∧ (0 : Int) = 0)] at h
      cases hpv : pv cur with
      | none => rw [hpv] at h; exact Option.noConfusion h
      | some ev =>
        cases ev with
        | error e => rw [hpv] at h; exact Except.noConfusion (Option.some.inj h)
        | ok w =>
          rw [hpv] at h
          left
          exact ⟨[], t, rest, w, by simp, hc, rfl, by simp [netB], by simp [netR],
            by simpa using hpv, h⟩
    · rw [arrLoopG_step pv t _ _ _ _ _ hsep] at h
      rcases ih _ _ _ _ _ h with
        ⟨γ', t', δ, w, hrest, ht', hsf, hnb, hnbr, hpv, hcont⟩ | ⟨hsf, hrest⟩
      · left
        refine ⟨t :: γ', t', δ, w, by rw [hrest, List.cons_append], ht', ?_, ?_, ?_, ?_, hcont⟩
        · simp only [sepFree]
          rw [if_neg hsep]
          exact hsf
        · simp only [netB]; omega
        · simp only [netR]; omega
        · rw [show cur ++ t :: γ' = (cur ++ [t]) ++ γ' by simp]
          exact hpv
      · right
        constructor
        · simp only [sepFree]
          rw [if_neg hsep]
          exact hsf
        · rcases hrest with ⟨hnil, hv⟩ | ⟨w, hpv, hv⟩
          · exact absurd hnil (by simp)
          · exact Or.inr ⟨w, by rw [show cur ++ t :: rest = (cur ++ [t]) ++ rest by simp]; exact hpv, hv⟩

theorem objLoopG_beforeKey (pv : List JsonToken → PRes) (all : List JsonToken) :
    ∀ rest idx (nb nbr : Int) obj v,
      objLoopG pv all rest idx .BeforeKey [] nb nbr obj = some (.ok v) →
      (rest = [] ∧ v = .Object obj) ∨
      (∃ k col rest', rest = k :: col :: rest' ∧ k.token_type = .String ∧
        col.token_type = .Column ∧
        objLoopG pv all rest' (idx + 2) (.Column k (idx + 2)) [] nb nbr obj =
          some (.ok v)) := by
  intro rest idx nb nbr obj v h
  match rest with
  | [] =>
    left
    simp only [objLoopG, Option.some.injEq, Except.ok.injEq] at h
    exact ⟨rfl, h.symm⟩
  | k :: rest2 =>
    right
    simp only [objLoopG] at h
    split at h
    · split at h
      · exact Option.noConfusion h
      · exact Except.noConfusion (Option.some.inj h)
    · rename_i hk
      match rest2 with
      | [] =>
        simp only [objLoopG] at h
        split at h
        · exact Option.noConfusion h
        · split at h
          · exact Except.noConfusion (Option.some.inj h)
          · exact Option.noConfusion h
      | col :: rest' =>
        simp only [objLoopG] at h
        split at h
        · exact Except.noConfusion (Option.some.inj h)
        · rename_i hcol
          refine ⟨k, col, rest', rfl, by simpa using hk, by simpa using hcol, ?_⟩
          simpa using h

theorem objLoopG_column_decomp (pv : List JsonToken → PRes) (all : List JsonToken)
    (key : JsonToken) :
    ∀ rest cur (nb nbr : Int) (idx start : Nat) obj v,
      objLoopG pv all rest idx (.Column key start) cur nb nbr obj = some (.ok v) →
      (∃ γ t δ w, rest = γ ++ t :: δ ∧ t.token_type = .Comma ∧
        sepFree γ nb nbr = true ∧ nb + netB γ = 0 ∧ nbr + netR γ = 0 ∧
        pv (cur ++ γ) = some (.ok w) ∧
        objLoopG pv all δ (idx + γ.length + 1) .BeforeKey [] 0 0
          (insertHM obj (stripQuotes key.slice) w) = some (.ok v)) ∨
      (sepFree rest nb nbr = true ∧ start < idx + rest.length ∧
        ∃ w, pv (cur ++ rest) = some (.ok w) ∧
          v = .Object (insertHM obj (stripQuotes key.slice) w)) := by
  intro rest
  induction rest with
  | nil =>
    intro cur nb nbr idx start obj v h
    simp only [objLoopG] at h
    split at h
    · rename_i hlt
      cases hpv : pv cur with
      | none => rw [hpv] at h; exact Option.noConfusion h
      | some ev =>
        cases ev with
        | error e => rw [hpv] at h; exact Except.noConfusion (Option.some.inj h)
        | ok w =>
          rw [hpv] at h
          right
          refine ⟨rfl, by simpa using hlt, w, by simpa using hpv, ?_⟩
          have := Option.some.inj h
          exact (Except.ok.inj this).symm
    · split at h
      · exact Option.noConfusion h
      · split at h
        · exact Except.noConfusion (Option.some.inj h)
        · exact Option.noConfusion h
  | cons t rest ih =>
    intro cur nb nbr idx start obj v h
    by_cases hsep : t.token_type = .Comma ∧ nb = 0 ∧ nbr = 0
    · obtain ⟨hc, hnb, hnbr⟩ := hsep
      subst hnb; subst hnbr
      simp only [objLoopG, hc, if_pos (⟨rfl, rfl⟩ : (0 : Int) = 0 ∧ (0 : Int) = 0)] at h
      cases hpv : pv cur with
      | none => rw [hpv] at h; exact Option.noConfusion h
      | some ev =>
        cases ev with
        | error e => rw [hpv] at h; exact Except.noConfusion (Option.some.inj h)
        | ok w =>
          rw [hpv] at h
          left
          exact ⟨[], t, rest, w, by simp, hc, rfl, by simp [netB], by simp [netR],
            by simpa using hpv, by simpa using h⟩
    · rw [objLoopG_step pv all t _ _ _ _ _ _ _ _ hsep] at h
      rcases ih _ _ _ _ _ _ _ h with
        ⟨γ', t', δ, w, hrest, ht', hsf, hnb, hnbr, hpv, hcont⟩ | ⟨hsf, hlt, w, hpv, hv⟩
      · left
        refine ⟨t :: γ', t', δ, w, by rw [hrest, List.cons_append], ht', ?_, ?_, ?_, ?_, ?_⟩
        · simp only [sepFree]
          rw [if_neg hsep]
          exact hsf
        · simp only [netB]; omega
        · simp only [netR]; omega
        · rw [show cur ++ t :: γ' = (cur ++ [t]) ++ γ' by simp]
          exact hpv
        · have he : idx + 1 + γ'.length + 1 = idx + (t :: γ').length + 1 := by
            simp; omega
          rw [← he]
          -- the continuation depth arguments: the IH run is at the
          -- unchanged counters, which equal the caller's by the net facts
          exact hcont
      · right
        refine ⟨?_, by simp at hlt ⊢; omega, w, ?_, hv⟩
        · simp only [sepFree]
          rw [if_neg hsep]
          exact hsf
        · rw [show cur ++ t :: rest = (cur ++ [t]) ++ rest by simp]
          exact hpv

/-! ### Shape of successfully parsed slices -/

theorem arrInterior_shape (pv : List JsonToken → PRes) :
    ∀ N rest acc v, rest.length ≤ N →
      (∀ ws w, ws.length ≤ rest.length → pv ws = some (.ok w) → chunkShape ws) →
      arrLoopG pv rest [] 0 0 acc = some (.ok v) → interiorShape rest := by
  intro N
  induction N with
  | zero =>
    intro rest acc v hlen HA h
    match rest, hlen with
    | [], _ => exact ⟨rfl, rfl, rfl⟩
  | succ N ih =>
    intro rest acc v hlen HA h
    rcases arrLoopG_decomp pv rest [] 0 0 acc v h with
      ⟨γ, t, δ, w, hrest, ht, hsf, hnb, hnbr, hpv, hcont⟩ | ⟨hsf, hres⟩
    · subst hrest
      have hlenγ : γ.length ≤ γ.length + (t :: δ).length := by simp
      have hA := HA γ w (by simp) (by simpa using hpv)
      obtain ⟨hck, hgb, hgr⟩ := hA
      have hδ : interiorShape δ := by
        refine ih δ _ v (by simp at hlen; omega) ?_ hcont
        intro ws w' hw hpw
        exact HA ws w' (by simp; omega) hpw
      obtain ⟨hio, hdb, hdr⟩ := hδ
      refine ⟨?_, ?_, ?_⟩
      · rw [interiorOk_append]
        simp only [Bool.and_eq_true]
        refine ⟨chunkOk_interiorOk _ _ _ hck, ?_⟩
        simp only [interiorOk, hgb, hgr]
        have : dB t.token_type = 0 := by simp [dB, ht]
        have h2 : dR t.token_type = 0 := by simp [dR, ht]
        simp [this, h2, hio]
      · rw [netB_append]
        simp [netB, hgb, hdb, dB, ht]
      · rw [netR_append]
        simp [netR, hgr, hdr, dR, ht]
    · rcases hres with ⟨hnil, -⟩ | ⟨w, hpv, -⟩
      · simp at hnil
        subst hnil
        exact ⟨rfl, rfl, rfl⟩
      · have := HA rest w (by simp) (by simpa using hpv)
        exact ⟨chunkOk_interiorOk _ _ _ this.1, this.2.1, this.2.2⟩

theorem objInterior_shape (pv : List JsonToken → PRes) (all : List JsonToken) :
    ∀ N rest idx obj v, rest.length ≤ N →
      (∀ ws w, ws.length ≤ rest.length → pv ws = some (.ok w) → chunkShape ws) →
      objLoopG pv all rest idx .BeforeKey [] 0 0 obj = some (.ok v) →
      interiorShape rest := by
  intro N
  induction N with
  | zero =>
    intro rest idx obj v hlen HA h
    match rest, hlen with
    | [], _ => exact ⟨rfl, rfl, rfl⟩
  | succ N ih =>
    intro rest idx obj v hlen HA h
    rcases objLoopG_beforeKey pv all rest idx 0 0 obj v h with
      ⟨hnil, -⟩ | ⟨k, col, rest', hrest, hk, hcol, h2⟩
    · subst hnil
      exact ⟨rfl, rfl, rfl⟩
    · subst hrest
      have hdbk : dB k.token_type = 0 := by simp [dB, hk]
      have hdrk : dR k.token_type = 0 := by simp [dR, hk]
      have hdbc : dB col.token_type = 0 := by simp [dB, hcol]
      have hdrc : dR col.token_type = 0 := by simp [dR, hcol]
      rcases objLoopG_column_decomp pv all k rest' [] 0 0 (idx + 2) (idx + 2) obj v h2 with
        ⟨γ, t, δ, w, hrest', ht, hsf, hnb, hnbr, hpv, hcont⟩ | ⟨hsf, hlt, w, hpv, -⟩
      · subst hrest'
        have hA := HA γ w (by simp; omega) (by simpa using hpv)
        obtain ⟨hck, hgb, hgr⟩ := hA
        have hδ : interiorShape δ := by
          refine ih δ _ _ v (by simp at hlen; omega) ?_ hcont
          intro ws w' hw hpw
          exact HA ws w' (by simp; omega) hpw
        obtain ⟨hio, hdb, hdr⟩ := hδ
        have hdbt : dB t.token_type = 0 := by simp [dB, ht]
        have hdrt : dR t.token_type = 0 := by simp [dR, ht]
        refine ⟨?_, ?_, ?_⟩
        · simp only [interiorOk, hdbk, hdrk, hdbc, hdrc, Bool.and_eq_true]
          refine ⟨by simp, by simp, ?_⟩
          have : (0 : Int) + 0 + 0 = 0 := by ring
          rw [interiorOk_append]
          simp only [Bool.and_eq_true]
          constructor
          · have := chunkOk_interiorOk _ _ _ hck
            simpa using this
          · simp only [interiorOk, Bool.and_eq_true]
            have e1 : (0 : Int) + 0 + 0 + netB γ = netB γ := by ring
            have e2 : (0 : Int) + 0 + 0 + netR γ = netR γ := by ring
            rw [e1, e2]
            simp only [hgb, hgr]
            refine ⟨by simp, ?_⟩
            simpa [hdbt, hdrt] using hio
        · simp [netB, netB_append, hdbk, hdbc, hdbt, hgb, hdb]
        · simp [netR, netR_append, hdrk, hdrc, hdrt, hgr, hdr]
      · have hA := HA rest' w (by simp; omega) (by simpa using hpv)
        obtain ⟨hck, hgb, hgr⟩ := hA
        refine ⟨?_, ?_, ?_⟩
        · simp only [interiorOk, hdbk, hdrk, hdbc, hdrc, Bool.and_eq_true]
          refine ⟨by simp, by simp, ?_⟩
          have := chunkOk_interiorOk _ _ _ hck
          simpa using this
        · simp [netB, hdbk, hdbc, hgb]
        · simp [netR, hdrk, hdrc, hgr]

theorem parseValue_shape :
    ∀ N vs v, vs.length ≤ N → parseValue vs = some (.ok v) → chunkShape vs := by
  intro N
  induction N with
  | zero =>
    intro vs v hlen h
    match vs, hlen with
    | [], _ => exact absurd h (by simp [parseValue, parseValueF, parseStep])
  | succ N ih =>
    intro vs v hlen h
    rw [parseValue_unfold] at h
    match vs, hlen with
    | [], _ => exact absurd h (by simp [parseStep])
    | tok :: restAll, hlen =>
      replace h : parseDispatch parseValue tok restAll = some (.ok v) := h
      simp only [parseDispatch] at h
      split at h
      · -- LeftBracket
        rename_i hty
        simp only [parseBracket] at h
        split at h
        · exact Except.noConfusion (Option.some.inj h)
        · rename_i lastTok hlast
          split at h
          · split at h
            · exact Option.noConfusion h
            · exact Except.noConfusion (Option.some.inj h)
          · rename_i hne
            have hrb : lastTok.token_type = .RightBracket := not_not.mp hne
            have hsplit : restAll.dropLast ++ [lastTok] = restAll :=
              List.dropLast_append_getLast? lastTok hlast
            have hint : interiorShape restAll.dropLast := by
              refine arrInterior_shape parseValue restAll.dropLast.length
                restAll.dropLast [] v le_rfl ?_ h
              intro ws w hw hpw
              refine ih ws w ?_ hpw
              have h1 : restAll.dropLast.length ≤ restAll.length := by
                simp [List.length_dropLast]
              simp at hlen
              omega
            obtain ⟨hio, hnb, hnr⟩ := hint
            refine ⟨?_, ?_, ?_⟩
            · rw [← hsplit]
              simp only [chunkOk]
              rw [if_pos ⟨le_rfl, le_rfl, by simp [hty]⟩]
              rw [Bool.true_and, chunkOk_append]
              simp only [Bool.and_eq_true]
              constructor
              · have := interiorOk_shiftB _ _ _ hio
                simpa [hty, dB, dR] using this
              · simp [chunkOk, hty, dB, dR, hnb, hnr, hrb]
            · rw [← hsplit]
              simp [netB, netB_append, dB, hty, hrb, hnb]
            · rw [← hsplit]
              simp [netR, netR_append, dR, hty, hrb, hnr]
      · -- LeftBrace
        rename_i hty
        simp only [parseBrace] at h
        split at h
        · exact Except.noConfusion (Option.some.inj h)
        · rename_i lastTok hlast
          split at h
          · split at h
            · exact Option.noConfusion h
            · exact Except.noConfusion (Option.some.inj h)
          · rename_i hne
            have hrb : lastTok.token_type = .RightBrace := not_not.mp hne
            have hsplit : restAll.dropLast ++ [lastTok] = restAll :=
              List.dropLast_append_getLast? lastTok hlast
            have hint : interiorShape restAll.dropLast := by
              refine objInterior_shape parseValue restAll.dropLast
                restAll.dropLast.length restAll.dropLast 0 [] v le_rfl ?_ h
              intro ws w hw hpw
              refine ih ws w ?_ hpw
              have h1 : restAll.dropLast.length ≤ restAll.length := by
                simp [List.length_dropLast]
              simp at hlen
              omega
            obtain ⟨hio, hnb, hnr⟩ := hint
            refine ⟨?_, ?_, ?_⟩
            · rw [← hsplit]
              simp only [chunkOk]
              rw [if_pos ⟨le_rfl, le_rfl, by simp [hty]⟩]
              rw [Bool.true_and, chunkOk_append]
              simp only [Bool.and_eq_true]
              constructor
              · have := interiorOk_shiftR _ _ _ hio
                simpa [hty, dB, dR] using this
              · simp [chunkOk, hty, dB, dR, hnb, hnr, hrb]
            · rw [← hsplit]
              simp [netB, netB_append, dB, hty, hrb, hnb]
            · rw [← hsplit]
              simp [netR, netR_append, dR, hty, hrb, hnr]
      all_goals
        rename_i hty
        first
        | -- primitive and Number arms: only the sole-token case succeeds
          (simp only [parseSole, parseNumberTok] at h
           split at h
           · exact ⟨by simp [chunkOk, hty], by simp [netB, dB, hty], by simp [netR, dR, hty]⟩
           · exact Except.noConfusion (Option.some.inj h))
        | -- catch-all arm: always an error
          exact Except.noConfusion (Option.some.inj h)

theorem parseValue_chunkShape (vs : List JsonToken) (v : JsonValue)
    (h : parseValue vs = some (.ok v)) : chunkShape vs :=
  parseValue_shape vs.length vs v le_rfl h

theorem parseValue_ok_ne_nil (vs : List JsonToken) (v : JsonValue)
    (h : parseValue vs = some (.ok v)) : vs ≠ [] := by
  intro hnil
  subst hnil
  simp [parseValue, parseValueF, parseStep] at h

/-- Unfolding `parse_value` on a nonempty slice. -/
theorem parseValue_cons (tok : JsonToken) (restAll : List JsonToken) :
    parseValue (tok :: restAll) = parseDispatch parseValue tok restAll :=
  parseValue_unfold _

theorem parseDispatch_bracket (pv : List JsonToken → PRes) (tok : JsonToken)
    (restAll : List JsonToken) (h : tok.token_type = .LeftBracket) :
    parseDispatch pv tok restAll = parseBracket pv tok restAll := by
  simp [parseDispatch, h]

theorem parseDispatch_brace (pv : List JsonToken → PRes) (tok : JsonToken)
    (restAll : List JsonToken) (h : tok.token_type = .LeftBrace) :
    parseDispatch pv tok restAll = parseBrace pv tok restAll := by
  simp [parseDispatch, h]

theorem parseBracket_closed (pv : List JsonToken → PRes) (tok : JsonToken)
    (interior : List JsonToken) (lastTok : JsonToken)
    (h : lastTok.token_type = .RightBracket) :
    parseBracket pv tok (interior ++ [lastTok]) = arrLoopG pv interior [] 0 0 [] := by
  simp only [parseBracket]
  rw [List.getLast?_concat]
  simp [h, List.dropLast_concat]

theorem parseBrace_closed (pv : List JsonToken → PRes) (tok : JsonToken)
    (interior : List JsonToken) (lastTok : JsonToken)
    (h : lastTok.token_type = .RightBrace) :
    parseBrace pv tok (interior ++ [lastTok]) =
      objLoopG pv interior interior 0 .BeforeKey [] 0 0 [] := by
  simp only [parseBrace]
  rw [List.getLast?_concat]
  simp [h, List.dropLast_concat]

/-- C10: for every token slice parsing as a value `v`, the array documents
`[v,]` and `[v]` both parse to the one-element array `[v]`. -/
theorem c10_array_trailing_comma :
    ∀ (vs : List JsonToken) (v : JsonValue), parseValue vs = some (.ok v) →
      parseValue (⟨['['], .LeftBracket⟩ :: (vs ++ [⟨[','], .Comma⟩, ⟨[']'], .RightBracket⟩])) =
          some (.ok (.Array [v])) ∧
        parseValue (⟨['['], .LeftBracket⟩ :: (vs ++ [⟨[']'], .RightBracket⟩])) =
          some (.ok (.Array [v])) := by
  intro vs v h
  obtain ⟨hck, hnb, hnr⟩ := parseValue_chunkShape vs v h
  have hsf := chunkOk_sepFree _ _ _ hck
  have hne := parseValue_ok_ne_nil vs v h
  constructor
  · rw [show vs ++ [(⟨[','], .Comma⟩ : JsonToken), ⟨[']'], .RightBracket⟩] =
        (vs ++ [⟨[','], .Comma⟩]) ++ [⟨[']'], .RightBracket⟩] by simp]
    rw [parseValue_cons, parseDispatch_bracket _ _ _ rfl, parseBracket_closed _ _ _ _ rfl]
    rw [arrLoopG_absorb parseValue vs 0 0 hsf [⟨[','], .Comma⟩] [] []]
    rw [show (0 : Int) + netB vs = 0 by omega, show (0 : Int) + netR vs = 0 by omega]
    simp [arrLoopG, h]
  · rw [parseValue_cons, parseDispatch_bracket _ _ _ rfl, parseBracket_closed _ _ _ _ rfl]
    rw [arrLoopG_absorb_all parseValue vs 0 0 hsf [] []]
    rw [show (0 : Int) + netB vs = 0 by omega, show (0 : Int) + netR vs = 0 by omega]
    simp [arrLoopG, h, hne]

/-! ### Claim theorems -/

/-- C10 witness: the theorem applied at `v` the number `5`. -/
theorem c10_array_trailing_comma_witness :
    parseValue [⟨['['], .LeftBracket⟩, ⟨['5'], .Number⟩, ⟨[','], .Comma⟩,
        ⟨[']'], .RightBracket⟩] = some (.ok (.Array [.Number (.Integer 5)])) ∧
      parseValue [⟨['['], .LeftBracket⟩, ⟨['5'], .Number⟩, ⟨[']'], .RightBracket⟩] =
        some (.ok (.Array [.Number (.Integer 5)])) :=
  c10_array_trailing_comma [⟨['5'], .Number⟩] (.Number (.Integer 5)) (by rfl)

/-- C6: `01` and `-01` fail lexing (leading zero), `0.5` and `0` lex to a
single `Number` token. -/
theorem c6_leading_zero :
    lex "01".toList = none ∧ lex "-01".toList = none ∧
      lex "0.5".toList = some [⟨"0.5".toList, .Number⟩] ∧
      lex "0".toList = some [⟨"0".toList, .Number⟩] :=
  ⟨by rfl, by rfl, by rfl, by rfl⟩

/-- C2 (code bug): `[1` lexes to `[LeftBracket, Number]`; on that slice the
last token is not `RightBracket`, but instead of the claimed `ParseError`
the code computes the context window `tokens[(last_idx - 3)..]` with
`last_idx = 1`, an usize underflow — a panic (`none`), also reached from the
top-level `parse`.  The analogous brace slice for `{1` panics too.  The
`len < 2` half of the claim does hold (last conjunct). -/
theorem c2_short_slice_panics :
    lex "[1".toList = some [⟨['['], .LeftBracket⟩, ⟨['1'], .Number⟩] ∧
      parseValue [⟨['['], .LeftBracket⟩, ⟨['1'], .Number⟩] = none ∧
      parse "[1".toList = none ∧
      parseValue [⟨['{'], .LeftBrace⟩, ⟨['1'], .Number⟩] = none ∧
      parseValue [⟨['['], .LeftBracket⟩] =
        some (.error ⟨⟨['['], .LeftBracket⟩, [⟨['['], .LeftBracket⟩], "Incomplete array"⟩) :=
  ⟨by rfl, by rfl, by rfl, by rfl, by rfl⟩

/-- C3 (code bug): in `{true:1}` the non-string key is the first interior
token (`idx = 0`), and building the claimed error's context window
`&tokens[(idx - 1)..]` underflows — a panic (`none`) instead of the
structured error; at a non-initial position the structured error is
produced as claimed (last conjunct). -/
theorem c3_nonstring_key_panics :
    lex "{true:1}".toList = some [⟨['{'], .LeftBrace⟩, ⟨"true".toList, .True⟩,
        ⟨[':'], .Column⟩, ⟨['1'], .Number⟩, ⟨['}'], .RightBrace⟩] ∧
      parseObject [⟨"true".toList, .True⟩, ⟨[':'], .Column⟩, ⟨['1'], .Number⟩] = none ∧
      parse "{true:1}".toList = none ∧
      parseObject [⟨['"', 'a', '"'], .String⟩, ⟨[':'], .Column⟩, ⟨['1'], .Number⟩,
          ⟨[','], .Comma⟩, ⟨"true".toList, .True⟩, ⟨[':'], .Column⟩, ⟨['2'], .Number⟩] =
        some (.error ⟨⟨"true".toList, .True⟩,
          [⟨[','], .Comma⟩, ⟨"true".toList, .True⟩, ⟨[':'], .Column⟩, ⟨['2'], .Number⟩],
          "Unexpected token in place of string key in object"⟩) :=
  ⟨by rfl, by rfl, by rfl, by rfl⟩

/-- C4 counterexample: `[,1]` tokenizes cleanly, but the parser does not
report a typed `ParseError`: the stray comma makes `parse_array` call
`parse_value` on an empty element slice, which is the fatal
`"Empty JSON is invalid JSON"` panic (`none`). -/
theorem c4_counterexample :
    lex "[,1]".toList = some [⟨['['], .LeftBracket⟩, ⟨[','], .Comma⟩, ⟨['1'], .Number⟩,
        ⟨[']'], .RightBracket⟩] ∧
      parseValue [⟨['['], .LeftBracket⟩, ⟨[','], .Comma⟩, ⟨['1'], .Number⟩,
        ⟨[']'], .RightBracket⟩] = none ∧
      parse "[,1]".toList = none :=
  ⟨by rfl, by rfl, by rfl⟩

/-- C4 amended: an array interior whose first token is a `Comma` always
panics (the empty element slice reaches the empty-document panic through
the recursive parser), and `[1,,2]` aborts the same way — never a partial
value and never a typed `ParseError` for these stray commas. -/
theorem c4_stray_comma_panics :
    (∀ (t : JsonToken) (rest : List JsonToken), t.token_type = .Comma →
        parseArray (t :: rest) = none) ∧
      parse "[1,,2]".toList = none := by
  constructor
  · intro t rest ht
    show arrLoopG parseValue (t :: rest) [] 0 0 [] = none
    simp [arrLoopG, ht, parseValue, parseValueF, parseStep]
  · rfl

/-- C4 amended witness. -/
theorem c4_stray_comma_panics_witness :
    parseArray [⟨[','], .Comma⟩, ⟨['1'], .Number⟩] = none :=
  c4_stray_comma_panics.1 ⟨[','], .Comma⟩ [⟨['1'], .Number⟩] rfl

/-- C1 counterexample: the interior of `{"a":1,}` is non-empty and ends in
the `BeforeKey` state (after the trailing top-level comma), yet
`parse_object` closes cleanly and the whole document parses to `{"a": 1}`. -/
theorem c1_counterexample :
    parseObject [⟨['"', 'a', '"'], .String⟩, ⟨[':'], .Column⟩, ⟨['1'], .Number⟩,
        ⟨[','], .Comma⟩] = some (.ok (.Object [(['a'], .Number (.Integer 1))])) ∧
      parse "\x7b\"a\":1,\x7d".toList = some (.Object [(['a'], .Number (.Integer 1))]) :=
  ⟨by rfl, by rfl⟩

/-- C8: `HashMap::insert` overwrites, so the last occurrence of a repeated
key wins — the model lookup after insert returns the inserted value for
every prior map, and `{"a":1,"a":2}` parses to `{"a": 2}`. -/
theorem c8_duplicate_keys :
    (∀ (m : List (List Char × JsonValue)) (k : List Char) (v : JsonValue),
        lookupHM (insertHM m k v) k = some v) ∧
      parse "\x7b\"a\":1,\"a\":2\x7d".toList = some (.Object [(['a'], .Number (.Integer 2))]) := by
  constructor
  · intro m k v
    induction m with
    | nil => simp [insertHM, lookupHM]
    | cons p m ih =>
      obtain ⟨k', v'⟩ := p
      by_cases h : k' = k
      · simp [insertHM, lookupHM, h]
      · simp [insertHM, lookupHM, h, ih]
  · rfl

/-- C9 counterexample: the number state machine accepts `1e` (end of input
in the `Exponent` state is a successful break), `lex` emits the `Number`
token `1e` — and `JsonNumber::parse` panics on it: `i64` parsing fails and
`f64::from_str` rejects an exponent with no digits, so the `unwrap` on the
float branch is reached as an error. -/
theorem c9_counterexample :
    lexNumber (numInitState '1') ['e'] = some (['e'], none, []) ∧
      lex "1e".toList = some [⟨['1', 'e'], .Number⟩] ∧
      JsonNumber.parse ['1', 'e'] = none ∧
      parse "1e".toList = none :=
  ⟨by rfl, by rfl, by rfl, by rfl⟩

/-! ### Small-step facts for the object parser -/

theorem objLoopG_nil_beforeKey (pv : List JsonToken → PRes) (all : List JsonToken)
    (idx : Nat) (nb nbr : Int) (obj : List (List Char × JsonValue)) :
    objLoopG pv all [] idx .BeforeKey [] nb nbr obj = some (.ok (.Object obj)) := by
  simp [objLoopG]

theorem objLoopG_stringKey (pv : List JsonToken → PRes) (all : List JsonToken)
    (tok : JsonToken) (rest : List JsonToken) (idx : Nat) (nb nbr : Int)
    (obj : List (List Char × JsonValue)) (hk : tok.token_type = .String) :
    objLoopG pv all (tok :: rest) idx .BeforeKey [] nb nbr obj =
      objLoopG pv all rest (idx + 1) (.Key tok) [] nb nbr obj := by
  simp [objLoopG, hk]

theorem objLoopG_colon (pv : List JsonToken → PRes) (all : List JsonToken)
    (tok : JsonToken) (rest : List JsonToken) (idx : Nat) (key : JsonToken)
    (cur : List JsonToken) (nb nbr : Int) (obj : List (List Char × JsonValue))
    (hc : tok.token_type = .Column) :
    objLoopG pv all (tok :: rest) idx (.Key key) cur nb nbr obj =
      objLoopG pv all rest (idx + 1) (.Column key (idx + 1)) [] nb nbr obj := by
  simp [objLoopG, hc]

theorem objLoopG_comma_ok (pv : List JsonToken → PRes) (all : List JsonToken)
    (t : JsonToken) (rest : List JsonToken) (idx : Nat) (key : JsonToken) (start : Nat)
    (cur : List JsonToken) (obj : List (List Char × JsonValue)) (w : JsonValue)
    (ht : t.token_type = .Comma) (hpv : pv cur = some (.ok w)) :
    objLoopG pv all (t :: rest) idx (.Column key start) cur 0 0 obj =
      objLoopG pv all rest (idx + 1) .BeforeKey [] 0 0
        (insertHM obj (stripQuotes key.slice) w) := by
  simp [objLoopG, ht, hpv]

theorem objLoopG_nil_column_ok (pv : List JsonToken → PRes) (all : List JsonToken)
    (idx : Nat) (key : JsonToken) (start : Nat) (cur : List JsonToken) (nb nbr : Int)
    (obj : List (List Char × JsonValue)) (w : JsonValue)
    (hlt : start < idx) (hpv : pv cur = some (.ok w)) :
    objLoopG pv all [] idx (.Column key start) cur nb nbr obj =
      some (.ok (.Object (insertHM obj (stripQuotes key.slice) w))) := by
  simp [objLoopG, hlt, hpv]

theorem objLoopG_absorb_all (pv : List JsonToken → PRes) (all : List JsonToken)
    (ws : List JsonToken) (nb nbr : Int) (h : sepFree ws nb nbr = true)
    (idx : Nat) (key : JsonToken) (start : Nat) (cur : List JsonToken)
    (obj : List (List Char × JsonValue)) :
    objLoopG pv all ws idx (.Column key start) cur nb nbr obj =
      objLoopG pv all [] (idx + ws.length) (.Column key start) (cur ++ ws)
        (nb + netB ws) (nbr + netR ws) obj := by
  conv_lhs => rw [← List.append_nil ws]
  exact objLoopG_absorb pv all ws nb nbr h [] idx key start cur obj

/-- C1 amended: `parse_object` closes cleanly at end of input in the
`BeforeKey` state whatever was accumulated before — in particular an
interior ending with a trailing top-level comma after a complete pair is
accepted, and yields the same object as without the comma. -/
theorem c1_object_trailing_comma :
    ∀ (k : List Char) (vs : List JsonToken) (v : JsonValue),
      parseValue vs = some (.ok v) →
      parseObject (⟨'"' :: (k ++ ['"']), .String⟩ :: ⟨[':'], .Column⟩ ::
          (vs ++ [⟨[','], .Comma⟩])) = some (.ok (.Object [(k, v)])) ∧
        parseObject (⟨'"' :: (k ++ ['"']), .String⟩ :: ⟨[':'], .Column⟩ :: vs) =
          some (.ok (.Object [(k, v)])) := by
  intro k vs v h
  obtain ⟨hck, hnb, hnr⟩ := parseValue_chunkShape vs v h
  have hsf := chunkOk_sepFree _ _ _ hck
  have hne := parseValue_ok_ne_nil vs v h
  have hkey : stripQuotes ('"' :: (k ++ ['"'])) = k := by
    simp [stripQuotes]
  constructor
  · show objLoopG parseValue _ _ 0 .BeforeKey [] 0 0 [] = _
    rw [objLoopG_stringKey _ _ _ _ _ _ _ _ rfl, objLoopG_colon _ _ _ _ _ _ _ _ _ _ rfl]
    rw [objLoopG_absorb parseValue _ vs 0 0 hsf [⟨[','], .Comma⟩] 2 _ 2 [] []]
    rw [show (0 : Int) + netB vs = 0 by omega, show (0 : Int) + netR vs = 0 by omega]
    rw [objLoopG_comma_ok _ _ _ _ _ _ _ _ _ v rfl (by simpa using h)]
    rw [objLoopG_nil_beforeKey]
    simp [insertHM, hkey]
  · show objLoopG parseValue _ _ 0 .BeforeKey [] 0 0 [] = _
    rw [objLoopG_stringKey _ _ _ _ _ _ _ _ rfl, objLoopG_colon _ _ _ _ _ _ _ _ _ _ rfl]
    rw [objLoopG_absorb_all parseValue _ vs 0 0 hsf 2 _ 2 [] []]
    rw [show (0 : Int) + netB vs = 0 by omega, show (0 : Int) + netR vs = 0 by omega]
    rw [objLoopG_nil_column_ok _ _ _ _ _ _ _ _ _ v
      (by have := List.length_pos.mpr hne; omega) (by simpa using h)]
    simp [insertHM, hkey]

/-- C1 amended witness: `{"a":1,}` and `{"a":1}` interiors both yield
`{"a": 1}`. -/
theorem c1_object_trailing_comma_witness :
    parseObject [⟨['"', 'a', '"'], .String⟩, ⟨[':'], .Column⟩, ⟨['1'], .Number⟩,
        ⟨[','], .Comma⟩] = some (.ok (.Object [(['a'], .Number (.Integer 1))])) ∧
      parseObject [⟨['"', 'a', '"'], .String⟩, ⟨[':'], .Column⟩, ⟨['1'], .Number⟩] =
        some (.ok (.Object [(['a'], .Number (.Integer 1))])) :=
  c1_object_trailing_comma ['a'] [⟨['1'], .Number⟩] (.Number (.Integer 1)) (by rfl)

/-- C7: a `Comma` at nonzero bracket or brace depth is never treated as a
separator — both loops absorb it into the pending element/value slice — and
`[[1,2],[3,4]]` parses to two 2-element arrays. -/
theorem c7_nested_comma_not_separator :
    (∀ (pv : List JsonToken → PRes) (t : JsonToken) (rest cur : List JsonToken)
        (nb nbr : Int) (acc : List JsonValue), t.token_type = .Comma → ¬(nb = 0 ∧ nbr = 0) →
        arrLoopG pv (t :: rest) cur nb nbr acc = arrLoopG pv rest (cur ++ [t]) nb nbr acc) ∧
      (∀ (pv : List JsonToken → PRes) (all : List JsonToken) (t : JsonToken)
          (rest : List JsonToken) (idx : Nat) (key : JsonToken) (start : Nat)
          (cur : List JsonToken) (nb nbr : Int) (obj : List (List Char × JsonValue)),
          t.token_type = .Comma → ¬(nb = 0 ∧ nbr = 0) →
          objLoopG pv all (t :: rest) idx (.Column key start) cur nb nbr obj =
            objLoopG pv all rest (idx + 1) (.Column key start) (cur ++ [t]) nb nbr obj) ∧
      parse "[[1,2],[3,4]]".toList =
        some (.Array [.Array [.Number (.Integer 1), .Number (.Integer 2)],
          .Array [.Number (.Integer 3), .Number (.Integer 4)]]) := by
  refine ⟨?_, ?_, by rfl⟩
  · intro pv t rest cur nb nbr acc ht hnz
    have := arrLoopG_step pv t rest cur nb nbr acc
      (by rintro ⟨-, h2, h3⟩; exact hnz ⟨h2, h3⟩)
    simpa [dB, dR, ht] using this
  · intro pv all t rest idx key start cur nb nbr obj ht hnz
    have := objLoopG_step pv all t rest idx key start cur nb nbr obj
      (by rintro ⟨-, h2, h3⟩; exact hnz ⟨h2, h3⟩)
    simpa [dB, dR, ht] using this

/-- C7 witness: inside `[1,2]` scanned at bracket depth 1, the comma is
absorbed into the element slice, not split on. -/
theorem c7_nested_comma_witness :
    arrLoopG parseValue [⟨[','], .Comma⟩, ⟨['2'], .Number⟩] [⟨['1'], .Number⟩] 1 0 [] =
      arrLoopG parseValue [⟨['2'], .Number⟩] [⟨['1'], .Number⟩, ⟨[','], .Comma⟩] 1 0 [] :=
  c7_nested_comma_not_separator.1 parseValue ⟨[','], .Comma⟩ [⟨['2'], .Number⟩]
    [⟨['1'], .Number⟩] 1 0 [] rfl (by simp)

/-! ### C5: number followed by a delimiter -/

theorem isDigit_toNat (c : Char) (h : c.isDigit = true) : 48 ≤ c.toNat ∧ c.toNat ≤ 57 := by
  simp only [Char.isDigit, decide_eq_true_eq, Bool.and_eq_true] at h
  exact ⟨h.1, h.2⟩

theorem numStart_facts (c : Char) (h : c = '-' ∨ c.isDigit = true) :
    rustIsWhitespace c = false ∧ singleCharType c = none ∧ c ≠ '"' := by
  rcases h with rfl | h
  · exact ⟨by decide, by decide, by decide⟩
  · obtain ⟨h1, h2⟩ := isDigit_toNat c h
    have hne : ∀ x : Char, x.toNat < 48 ∨ 57 < x.toNat → c ≠ x := by
      intro x hx hc
      subst hc
      omega
    refine ⟨?_, ?_, hne _ (by decide)⟩
    · simp only [rustIsWhitespace]
      rw [if_neg]
      intro hp
      rcases hp with h | h | h | h | h | h | h | h | h | h | h <;> omega
    · simp only [singleCharType]
      rw [if_neg (hne _ (by decide)), if_neg (hne _ (by decide)), if_neg (hne _ (by decide)),
        if_neg (hne _ (by decide)), if_neg (hne _ (by decide)), if_neg (hne _ (by decide))]

/-- C5: whenever the number scanner terminates by consuming a delimiter
`,` / `}` / `]`, `lex` pushes the `Number` token immediately followed by the
matching delimiter token and goes on with the rest; for any other
non-whitespace terminator lexing fails fatally.  The spec's example document
tokenizes accordingly. -/
theorem c5_number_then_delimiter :
    (∀ (c : Char) (cs co rest : List Char) (delim : Char),
      (c = '-' ∨ c.isDigit = true) →
      lexNumber (numInitState c) cs = some (co, some delim, rest) →
      ((delim = ',' → lex (c :: cs) =
          Option.map (fun ts => ⟨c :: co, .Number⟩ :: ⟨[delim], .Comma⟩ :: ts) (lex rest)) ∧
        (delim = '}' → lex (c :: cs) =
          Option.map (fun ts => ⟨c :: co, .Number⟩ :: ⟨[delim], .RightBrace⟩ :: ts) (lex rest)) ∧
        (delim = ']' → lex (c :: cs) =
          Option.map (fun ts => ⟨c :: co, .Number⟩ :: ⟨[delim], .RightBracket⟩ :: ts) (lex rest)) ∧
        (delim ≠ ',' → delim ≠ '}' → delim ≠ ']' → rustIsWhitespace delim = false →
          lex (c :: cs) = none))) ∧
      lex "\x7b\"a\":1,\"b\":2\x7d".toList = some [⟨['{'], .LeftBrace⟩,
        ⟨['"', 'a', '"'], .String⟩, ⟨[':'], .Column⟩, ⟨['1'], .Number⟩,
        ⟨[','], .Comma⟩, ⟨['"', 'b', '"'], .String⟩, ⟨[':'], .Column⟩, ⟨['2'], .Number⟩,
        ⟨['}'], .RightBrace⟩] := by
  constructor
  · intro c cs co rest delim hstart hnum
    obtain ⟨hws, hsc, hq⟩ := numStart_facts c hstart
    have hlex : lex (c :: cs) = lexNumTerm lex ⟨c :: co, .Number⟩ (some delim) rest := by
      rw [lex_unfold]
      simp only [lexStep, hws, Bool.false_eq_true, if_false, hsc, lexOther]
      rw [if_neg hq, if_pos hstart]
      simp only [lexNumberTok, hnum]
    refine ⟨?_, ?_, ?_, ?_⟩
    · intro hd
      subst hd
      rw [hlex]
      simp [lexNumTerm]
    · intro hd
      subst hd
      rw [hlex]
      simp [lexNumTerm]
    · intro hd
      subst hd
      rw [hlex]
      simp [lexNumTerm]
    · intro h1 h2 h3 h4
      rw [hlex]
      simp only [lexNumTerm]
      rw [if_neg h1, if_neg h2, if_neg h3, if_neg (by simp [h4])]
  · rfl

/-- C5 witness: `1,` — the scanner consumes the comma as terminator and the
lexer emits `Number` then `Comma`. -/
theorem c5_number_then_delimiter_witness :
    lex ['1', ','] = Option.map
      (fun ts => ⟨['1'], .Number⟩ :: ⟨[','], .Comma⟩ :: ts) (lex []) :=
  ((c5_number_then_delimiter.1 '1' [','] [] [] ',' (Or.inr (by decide)) (by rfl)).1) rfl

/-! ### C9: which lexed number slices survive `JsonNumber::parse` -/

theorem dropDigits_cons_digit (d : Char) (l : List Char) (h : d.isDigit = true) :
    dropDigits (d :: l) = dropDigits l := by
  simp [dropDigits, h]

theorem dropDigits_cons_nondigit (d : Char) (l : List Char) (h : d.isDigit = false) :
    dropDigits (d :: l) = d :: l := by
  simp [dropDigits, h]

theorem dropDigits_all (l : List Char) (h : l.all (·.isDigit) = true) :
    dropDigits l = [] := by
  induction l with
  | nil => rfl
  | cons d l ih =>
    simp only [List.all_cons, Bool.and_eq_true] at h
    simp [dropDigits, h.1, ih h.2]

theorem expEndBad_cons (c x : Char) (xs : List Char) :
    expEndBad (c :: x :: xs) = expEndBad (x :: xs) := by
  simp [expEndBad, List.getLast?_cons_cons]

theorem digit_not_sign (d : Char) (h : d.isDigit = true) : d ≠ '+' ∧ d ≠ '-' := by
  obtain ⟨h1, h2⟩ := isDigit_toNat d h
  constructor <;> (intro hc; subst hc; exact absurd h1 (by decide))

theorem lexNumber_FZ_head (cs co : List Char) (t : Option Char) (r : List Char)
    (h : lexNumber .FirstZero cs = some (co, t, r)) : dropDigits co = co := by
  match cs with
  | [] =>
    simp only [lexNumber, Option.some.injEq, Prod.mk.injEq] at h
    rw [← h.1]
    rfl
  | c :: rest =>
    rw [lexNumber.eq_def] at h
    simp only at h
    split at h
    · exact absurd h (by simp)
    · rename_i hnd
      have hcnd : c.isDigit = false := by
        cases hcd : c.isDigit with
        | false => rfl
        | true => exact absurd (Or.inl hcd) hnd
      split at h
      · split at h
        · simp only [Option.some.injEq, Prod.mk.injEq] at h
          rw [← h.1]
          exact dropDigits_cons_nondigit _ _ hcnd
        · exact absurd h (by simp)
      · split at h
        · split at h
          · simp only [Option.some.injEq, Prod.mk.injEq] at h
            rw [← h.1]
            exact dropDigits_cons_nondigit _ _ hcnd
          · exact absurd h (by simp)
        · simp only [Option.some.injEq, Prod.mk.injEq] at h
          rw [← h.1]
          rfl

theorem expEndBad_ne_nil (co : List Char) (h : expEndBad co = true) : co ≠ [] := by
  intro hnil
  subst hnil
  simp [expEndBad] at h

theorem resid_FD1_digit (d : Char) (co : List Char) (h : d.isDigit = true) :
    resid .FirstDigits (d :: co) = resid .FirstDigits co := by
  simp [resid, dropDigits_cons_digit d co h]

theorem resid_FD1_dot (co : List Char) :
    resid .FirstDigits ('.' :: co) = resid .FractionDot co := by
  rw [show resid .FirstDigits ('.' :: co) = afterCountOk (dropDigits ('.' :: co)) from rfl]
  rw [dropDigits_cons_nondigit _ _ (by decide)]
  simp [afterCountOk, resid]

theorem resid_FD1_exp (e : Char) (co : List Char) (he : e = 'e' ∨ e = 'E') :
    resid .FirstDigits (e :: co) = resid .Exponent co := by
  rw [show resid .FirstDigits (e :: co) = afterCountOk (dropDigits (e :: co)) from rfl]
  rcases he with rfl | rfl <;>
    (rw [dropDigits_cons_nondigit _ _ (by decide)]; simp [afterCountOk, expOk, resid])

theorem resid_FZ_dot (co : List Char) :
    resid .FirstZero ('.' :: co) = resid .FractionDot co := by
  simp [resid, afterCountOk]

theorem resid_FZ_exp (e : Char) (co : List Char) (he : e = 'e' ∨ e = 'E') :
    resid .FirstZero (e :: co) = resid .Exponent co := by
  rcases he with rfl | rfl <;> simp [resid, afterCountOk, expOk]

theorem resid_FDot_digit (d : Char) (co : List Char) (h : d.isDigit = true) :
    resid .FractionDot (d :: co) = resid .FractionDigits co := by
  simp [resid, dropDigits_cons_digit d co h]

theorem resid_FDig_digit (d : Char) (co : List Char) (h : d.isDigit = true) :
    resid .FractionDigits (d :: co) = resid .FractionDigits co := by
  simp [resid, dropDigits_cons_digit d co h]

theorem resid_FDig_exp (e : Char) (co : List Char) (he : e = 'e' ∨ e = 'E') :
    resid .FractionDigits (e :: co) = resid .Exponent co := by
  rcases he with rfl | rfl <;>
    (rw [show resid .FractionDigits _ = expOk (dropDigits _) from rfl,
      dropDigits_cons_nondigit _ _ (by decide)]; simp [expOk, resid])

theorem resid_E_digit (d : Char) (co : List Char) (hd : d.isDigit = true)
    (h : resid .ExponentDigits co = true) : resid .Exponent (d :: co) = true := by
  obtain ⟨hp, hm⟩ := digit_not_sign d hd
  have hall : (d :: co).all (·.isDigit) = true := by
    simp only [List.all_cons, Bool.and_eq_true]
    exact ⟨hd, h⟩
  simp [resid, expTailOk, hp, hm, digits1, hd, dropDigits_all co h]

theorem resid_E_sign (s : Char) (co : List Char) (hs : s = '-' ∨ s = '+')
    (h : resid .ExponentSign co = true) : resid .Exponent (s :: co) = true := by
  match co, h with
  | d :: ds, h =>
    simp only [resid, Bool.and_eq_true] at h
    rcases hs with rfl | rfl <;>
      simp [resid, expTailOk, digits1, h.1, dropDigits_all ds h.2]

theorem resid_ES_digit (d : Char) (co : List Char) (hd : d.isDigit = true)
    (h : resid .ExponentDigits co = true) : resid .ExponentSign (d :: co) = true := by
  simp [resid] at h ⊢
  exact ⟨hd, h⟩

theorem resid_ED_digit (d : Char) (co : List Char) (hd : d.isDigit = true)
    (h : resid .ExponentDigits co = true) : resid .ExponentDigits (d :: co) = true := by
  simp [resid] at h ⊢
  exact ⟨hd, h⟩

theorem resid_Sign_zero (co : List Char) (hdd : dropDigits co = co)
    (h : resid .FirstZero co = true) : resid .Sign ('0' :: co) = true := by
  simp [resid, numberOk, digits1, hdd] at h ⊢
  exact h

theorem resid_Sign_digit (d : Char) (co : List Char) (hd : d.isDigit = true)
    (h : resid .FirstDigits co = true) : resid .Sign (d :: co) = true := by
  have hdot : d ≠ '.' := by
    intro hc
    subst hc
    exact absurd hd (by decide)
  simp [resid, numberOk, digits1, hd, hdot] at h ⊢
  exact h

theorem lexNumber_resid :
    ∀ (cs : List Char) (st : NumberLexerState) (co : List Char) (t : Option Char)
      (r : List Char),
      lexNumber st cs = some (co, t, r) →
      resid st co = true ∨
        (t = none ∧ (expEndBad co = true ∨
          (co = [] ∧ (st = .Exponent ∨ st = .ExponentSign)))) := by
  intro cs
  induction cs with
  | nil =>
    intro st co t r h
    rw [lexNumber.eq_def] at h
    rcases st <;> simp only at h <;>
      first
      | (simp only [Option.some.injEq, Prod.mk.injEq] at h
         obtain ⟨h1, h2, h3⟩ := h
         subst h1
         subst h2
         first
         | exact Or.inl rfl
         | exact Or.inr ⟨rfl, Or.inr ⟨rfl, Or.inl rfl⟩⟩
         | exact Or.inr ⟨rfl, Or.inr ⟨rfl, Or.inr rfl⟩⟩)
      | exact absurd h (by simp)
  | cons c rest ih =>
    intro st co t r h
    rw [lexNumber.eq_def] at h
    have hbadlift : ∀ (st' : NumberLexerState) (co' : List Char),
        (t = none ∧ (expEndBad co' = true ∨ (co' = [] ∧ (st' = .Exponent ∨ st' = .ExponentSign)))) →
        (st' = .Exponent → c = 'e' ∨ c = 'E') →
        (st' = .ExponentSign → c = '-' ∨ c = '+') →
        t = none ∧ expEndBad (c :: co') = true := by
      intro st' co' ⟨ht, hbad⟩ hE hES
      refine ⟨ht, ?_⟩
      rcases hbad with hbd | ⟨hnil, hst⟩
      · match co', hbd with
        | x :: xs, hbd => rw [expEndBad_cons]; exact hbd
      · subst hnil
        rcases hst with rfl | rfl
        · rcases hE rfl with rfl | rfl <;> rfl
        · rcases hES rfl with rfl | rfl <;> rfl
    rcases st <;> simp only at h
    · -- Sign
      split at h
      · rename_i hc
        subst hc
        split at h
        · rename_i heq
          simp only [Option.some.injEq, Prod.mk.injEq] at h
          obtain ⟨h1, h2, h3⟩ := h
          subst h1
          subst h2
          rcases ih _ _ _ _ heq with hres | hbad
          · exact Or.inl (resid_Sign_zero _ (lexNumber_FZ_head _ _ _ _ heq) hres)
          · exact Or.inr ⟨(hbadlift _ _ hbad (by simp) (by simp)).1, Or.inl (hbadlift _ _ hbad (by simp) (by simp)).2⟩
        · exact absurd h (by simp)
      · split at h
        · rename_i hnz hd
          split at h
          · rename_i heq
            simp only [Option.some.injEq, Prod.mk.injEq] at h
            obtain ⟨h1, h2, h3⟩ := h
            subst h1
            subst h2
            rcases ih _ _ _ _ heq with hres | hbad
            · exact Or.inl (resid_Sign_digit _ _ hd hres)
            · exact Or.inr ⟨(hbadlift _ _ hbad (by simp) (by simp)).1, Or.inl (hbadlift _ _ hbad (by simp) (by simp)).2⟩
          · exact absurd h (by simp)
        · exact absurd h (by simp)
    · -- FirstDigits
      split at h
      · rename_i hd
        split at h
        · rename_i heq
          simp only [Option.some.injEq, Prod.mk.injEq] at h
          obtain ⟨h1, h2, h3⟩ := h
          subst h1
          subst h2
          rcases ih _ _ _ _ heq with hres | hbad
          · rw [← hres]
            exact Or.inl (resid_FD1_digit _ _ hd)
          · exact Or.inr ⟨(hbadlift _ _ hbad (by simp) (by simp)).1, Or.inl (hbadlift _ _ hbad (by simp) (by simp)).2⟩
        · exact absurd h (by simp)
      · split at h
        · rename_i hnd hdot
          subst hdot
          split at h
          · rename_i heq
            simp only [Option.some.injEq, Prod.mk.injEq] at h
            obtain ⟨h1, h2, h3⟩ := h
            subst h1
            subst h2
            rcases ih _ _ _ _ heq with hres | hbad
            · rw [← hres]
              exact Or.inl (resid_FD1_dot _)
            · exact Or.inr ⟨(hbadlift _ _ hbad (by simp) (by simp)).1, Or.inl (hbadlift _ _ hbad (by simp) (by simp)).2⟩
          · exact absurd h (by simp)
        · split at h
          · rename_i hnd hndot he
            split at h
            · rename_i heq
              simp only [Option.some.injEq, Prod.mk.injEq] at h
              obtain ⟨h1, h2, h3⟩ := h
              subst h1
              subst h2
              rcases ih _ _ _ _ heq with hres | hbad
              · rw [← hres]
                exact Or.inl (resid_FD1_exp _ _ he)
              · exact Or.inr ⟨(hbadlift _ _ hbad (fun _ => he) (by simp)).1, Or.inl (hbadlift _ _ hbad (fun _ => he) (by simp)).2⟩
            · exact absurd h (by simp)
          · simp only [Option.some.injEq, Prod.mk.injEq] at h
            obtain ⟨h1, h2, h3⟩ := h
            subst h1
            subst h2
            exact Or.inl rfl
    · -- FirstZero
      split at h
      · exact absurd h (by simp)
      · split at h
        · rename_i hnd hdot
          subst hdot
          split at h
          · rename_i heq
            simp only [Option.some.injEq, Prod.mk.injEq] at h
            obtain ⟨h1, h2, h3⟩ := h
            subst h1
            subst h2
            rcases ih _ _ _ _ heq with hres | hbad
            · rw [← hres]
              exact Or.inl (resid_FZ_dot _)
            · exact Or.inr ⟨(hbadlift _ _ hbad (by simp) (by simp)).1, Or.inl (hbadlift _ _ hbad (by simp) (by simp)).2⟩
          · exact absurd h (by simp)
        · split at h
          · rename_i hnd hndot he
            split at h
            · rename_i heq
              simp only [Option.some.injEq, Prod.mk.injEq] at h
              obtain ⟨h1, h2, h3⟩ := h
              subst h1
              subst h2
              rcases ih _ _ _ _ heq with hres | hbad
              · rw [← hres]
                exact Or.inl (resid_FZ_exp _ _ he)
              · exact Or.inr ⟨(hbadlift _ _ hbad (fun _ => he) (by simp)).1, Or.inl (hbadlift _ _ hbad (fun _ => he) (by simp)).2⟩
            · exact absurd h (by simp)
          · simp only [Option.some.injEq, Prod.mk.injEq] at h
            obtain ⟨h1, h2, h3⟩ := h
            subst h1
            subst h2
            exact Or.inl rfl
    · -- FractionDot
      split at h
      · rename_i hd
        split at h
        · rename_i heq
          simp only [Option.some.injEq, Prod.mk.injEq] at h
          obtain ⟨h1, h2, h3⟩ := h
          subst h1
          subst h2
          rcases ih _ _ _ _ heq with hres | hbad
          · rw [← hres]
            exact Or.inl (resid_FDot_digit _ _ hd)
          · exact Or.inr ⟨(hbadlift _ _ hbad (by simp) (by simp)).1, Or.inl (hbadlift _ _ hbad (by simp) (by simp)).2⟩
        · exact absurd h (by simp)
      · exact absurd h (by simp)
    · -- FractionDigits
      split at h
      · rename_i hd
        split at h
        · rename_i heq
          simp only [Option.some.injEq, Prod.mk.injEq] at h
          obtain ⟨h1, h2, h3⟩ := h
          subst h1
          subst h2
          rcases ih _ _ _ _ heq with hres | hbad
          · rw [← hres]
            exact Or.inl (resid_FDig_digit _ _ hd)
          · exact Or.inr ⟨(hbadlift _ _ hbad (by simp) (by simp)).1, Or.inl (hbadlift _ _ hbad (by simp) (by simp)).2⟩
        · exact absurd h (by simp)
      · split at h
        · rename_i hnd he
          split at h
          · rename_i heq
            simp only [Option.some.injEq, Prod.mk.injEq] at h
            obtain ⟨h1, h2, h3⟩ := h
            subst h1
            subst h2
            rcases ih _ _ _ _ heq with hres | hbad
            · rw [← hres]
              exact Or.inl (resid_FDig_exp _ _ he)
            · exact Or.inr ⟨(hbadlift _ _ hbad (fun _ => he) (by simp)).1, Or.inl (hbadlift _ _ hbad (fun _ => he) (by simp)).2⟩
          · exact absurd h (by simp)
        · simp only [Option.some.injEq, Prod.mk.injEq] at h
          obtain ⟨h1, h2, h3⟩ := h
          subst h1
          subst h2
          exact Or.inl rfl
    · -- Exponent
      split at h
      · rename_i hd
        split at h
        · rename_i heq
          simp only [Option.some.injEq, Prod.mk.injEq] at h
          obtain ⟨h1, h2, h3⟩ := h
          subst h1
          subst h2
          rcases ih _ _ _ _ heq with hres | hbad
          · exact Or.inl (resid_E_digit _ _ hd hres)
          · exact Or.inr ⟨(hbadlift _ _ hbad (by simp) (by simp)).1, Or.inl (hbadlift _ _ hbad (by simp) (by simp)).2⟩
        · exact absurd h (by simp)
      · split at h
        · rename_i hnd hs
          split at h
          · rename_i heq
            simp only [Option.some.injEq, Prod.mk.injEq] at h
            obtain ⟨h1, h2, h3⟩ := h
            subst h1
            subst h2
            rcases ih _ _ _ _ heq with hres | hbad
            · exact Or.inl (resid_E_sign _ _ hs hres)
            · exact Or.inr ⟨(hbadlift _ _ hbad (by simp) (fun _ => hs)).1, Or.inl (hbadlift _ _ hbad (by simp) (fun _ => hs)).2⟩
          · exact absurd h (by simp)
        · exact absurd h (by simp)
    · -- ExponentSign
      split at h
      · rename_i hd
        split at h
        · rename_i heq
          simp only [Option.some.injEq, Prod.mk.injEq] at h
          obtain ⟨h1, h2, h3⟩ := h
          subst h1
          subst h2
          rcases ih _ _ _ _ heq with hres | hbad
          · exact Or.inl (resid_ES_digit _ _ hd hres)
          · exact Or.inr ⟨(hbadlift _ _ hbad (by simp) (by simp)).1, Or.inl (hbadlift _ _ hbad (by simp) (by simp)).2⟩
        · exact absurd h (by simp)
      · exact absurd h (by simp)
    · -- ExponentDigits
      split at h
      · rename_i hd
        split at h
        · rename_i heq
          simp only [Option.some.injEq, Prod.mk.injEq] at h
          obtain ⟨h1, h2, h3⟩ := h
          subst h1
          subst h2
          rcases ih _ _ _ _ heq with hres | hbad
          · exact Or.inl (resid_ED_digit _ _ hd hres)
          · exact Or.inr ⟨(hbadlift _ _ hbad (by simp) (by simp)).1, Or.inl (hbadlift _ _ hbad (by simp) (by simp)).2⟩
        · exact absurd h (by simp)
      · simp only [Option.some.injEq, Prod.mk.injEq] at h
        obtain ⟨h1, h2, h3⟩ := h
        subst h1
        subst h2
        exact Or.inl rfl

/-- C9 amended: a number slice accepted by the scanner never panics in
`JsonNumber::parse` unless it ends in a dangling exponent introducer or
exponent sign (`e` / `E` / `+` / `-`, possible only at end of input); for
all other accepted slices the `i64`-or-`f64` parse succeeds. -/
theorem c9_accepted_numbers_parse :
    ∀ (c : Char) (cs co rest : List Char) (term : Option Char),
      (c = '-' ∨ c.isDigit = true) →
      lexNumber (numInitState c) cs = some (co, term, rest) →
      expEndBad (c :: co) = false →
      JsonNumber.parse (c :: co) ≠ none := by
  intro c cs co rest term hstart hlex hbadend
  rcases lexNumber_resid cs (numInitState c) co term rest hlex with hres | ⟨ht, hbad⟩
  · have hf64 : f64FromStrOk (c :: co) = true := by
      by_cases hm : c = '-'
      · subst hm
        simp only [numInitState, if_pos rfl] at hres
        simp [f64FromStrOk, resid] at hres ⊢
        simp [hres]
      · have hd : c.isDigit = true := hstart.resolve_left hm
        obtain ⟨hp, hm2⟩ := digit_not_sign c hd
        have hnum : numberOk (c :: co) = true := by
          by_cases hz : c = '0'
          · subst hz
            have h0 : ¬(('0' : Char) = '-') := by decide
            simp only [numInitState, if_neg h0, if_pos rfl] at hres hlex
            exact resid_Sign_zero co (lexNumber_FZ_head _ _ _ _ hlex) hres
          · simp only [numInitState, hm, hz, if_false] at hres
            exact resid_Sign_digit c co hd hres
        simp [f64FromStrOk, hp, hm2, hnum]
    simp only [JsonNumber.parse]
    split
    · simp
    · simp [hf64]
  · rcases hbad with hbd | ⟨hnil, hst⟩
    · match co, hbd with
      | x :: xs, hbd =>
        rw [expEndBad_cons, hbd] at hbadend
        exact Bool.noConfusion hbadend
    · rcases hst with hE | hES
      · simp only [numInitState] at hE
        split_ifs at hE
      · simp only [numInitState] at hES
        split_ifs at hES

/-- C9 amended witness: the slice `15` (scanner stops at the comma) parses
as the integer 15. -/
theorem c9_accepted_numbers_parse_witness :
    JsonNumber.parse ['1', '5'] ≠ none :=
  c9_accepted_numbers_parse '1' ['5', ','] ['5'] [] (some ',')
    (Or.inr (by decide)) (by rfl) (by rfl)
